import Mathlib

/-!
Verification of the cycle-refinement core of PyTorch-AutoNEB
(`src/torch_autoneb/__init__.py`) against its specification.

The embedding models the Python data as follows: node identifiers are `Nat`,
tensors are integer lists (`List Int` for 1-D, `List (List Int)` for 2-D),
attribute dictionaries are insertion-ordered association lists with `String`
keys, and the `networkx.MultiGraph` is a node list plus an insertion-ordered
edge list keyed by `(endpoint, endpoint, cycle index)`.  Fallible Python
operations (dict/list indexing, `min` over an empty sequence, `assert`,
call-arity errors) are modelled with `Except PyErr`.
-/

namespace AutoNEB

/-- Python exception kinds raised by the code paths under study. -/
inductive PyErr where
  | keyError
  | typeError
  | assertionError
  | attributeError
  | indexError
  | valueError (msg : String)
deriving DecidableEq, Repr

/-- Model of a Python value stored in a graph attribute dictionary: a scalar
(`int`, also standing in for the `float` analysis values, which these claims
only ever compare), a 1-D tensor, or a 2-D tensor such as `path_coords`. -/
inductive PyVal where
  | int : Int → PyVal
  | t1 : List Int → PyVal
  | t2 : List (List Int) → PyVal
deriving DecidableEq, Repr

/-- A Python attribute dictionary: insertion-ordered association list with
string keys, as produced by this code base (node attributes such as
`coords`, edge attributes such as `path_coords`, `target_distances`,
`weight`, `cycle_idx`). -/
abbrev PyDict := List (String × PyVal)

/-- Is a key bound in an association list? -/
def keyMem {α β : Type} [BEq α] (k : α) : List (α × β) → Bool
  | [] => false
  | p :: rest => p.1 == k || keyMem k rest

/-- First binding of a key in an association list. -/
def keyLookup {α β : Type} [BEq α] (k : α) : List (α × β) → Option β
  | [] => none
  | p :: rest => if p.1 == k then some p.2 else keyLookup k rest

/-- Python `d[k]` read on a string-keyed dict: first (and, with unique keys,
only) binding for `k`. -/
def dictGet (d : PyDict) (k : String) : Option PyVal :=
  keyLookup k d

/-- Python `d[k] = v`: overwrite the existing binding in place (dict update
keeps the key's position), otherwise append a new binding. -/
def dictSet (d : PyDict) (k : String) (v : PyVal) : PyDict :=
  if keyMem k d then
    d.map (fun p => if p.1 == k then (k, v) else p)
  else
    d ++ [(k, v)]

/-- Python `d.update(u)`: set every binding of `u` into `d`, in order. -/
def dictUpdate (d : PyDict) (u : PyDict) : PyDict :=
  u.foldl (fun acc kv => dictSet acc kv.1 kv.2) d

/-- One parallel edge of the landscape multigraph: endpoints, cycle-index
key, and the attribute dictionary of that refinement cycle. -/
structure MEdge where
  u : Nat
  v : Nat
  key : Nat
  data : PyDict
deriving DecidableEq, Repr

/-- The `networkx.MultiGraph`: insertion-ordered nodes with attribute dicts
and insertion-ordered parallel edges. -/
structure MGraph where
  nodes : List (Nat × PyDict)
  edges : List MEdge
deriving DecidableEq, Repr

/-- Unordered-pair test: does the edge `(a, b)` connect the same two nodes
as `(x, y)`? -/
def pairEqb (a b x y : Nat) : Bool :=
  (a == x && b == y) || (a == y && b == x)

/-- Membership of a node in the graph. -/
def hasNode (g : MGraph) (m : Nat) : Bool :=
  keyMem m g.nodes

/-- The keyed parallel edges between two nodes, in insertion order: the
contents of the `networkx` view `graph[m1][m2]` as a `(key, data)` list. -/
def edgesBetween (g : MGraph) (a b : Nat) : List (Nat × PyDict) :=
  g.edges.filterMap (fun e =>
    if pairEqb e.u e.v a b then some (e.key, e.data) else none)

/-- Python `graph[m1][m2]` on a `MultiGraph`: `KeyError` when `m1` is not a
node, and `KeyError` when `m2` is not adjacent to `m1` (networkx stores no
empty neighbour entries, so a returned view is never empty). -/
def mgAdj (g : MGraph) (m1 m2 : Nat) : Except PyErr (List (Nat × PyDict)) :=
  if hasNode g m1 = false then Except.error PyErr.keyError
  else if edgesBetween g m1 m2 = [] then Except.error PyErr.keyError
  else Except.ok (edgesBetween g m1 m2)

/-- Lookup in the keyed edge view `graph[m1][m2]` by edge key (`view[k]`):
`KeyError` when the key is absent. -/
def multiViewGet (kd : List (Nat × PyDict)) (k : Nat) : Except PyErr PyDict :=
  match keyLookup k kd with
  | some d => Except.ok d
  | none => Except.error PyErr.keyError

/-- Python integer indexing into a string-keyed attribute dictionary, as in
`existing_edges[m1][m2]` where the inner object is an edge attribute dict:
no integer can equal a string key, so this always raises `KeyError` and
never produces a value. -/
def pyDictIntIndex (_d : PyDict) (_i : Nat) : Except PyErr Empty :=
  Except.error PyErr.keyError

/-- Python list indexing `l[i]` for a non-negative index: `IndexError` when
out of range. -/
def pyListGet {α : Type} (l : List α) (i : Nat) : Except PyErr α :=
  match l.get? i with
  | some x => Except.ok x
  | none => Except.error PyErr.indexError

/-- Modelled from the spec: the per-cycle NEB hyperparameter record
(`NEBHyperparameters` lives in `torch_autoneb/hyperparameters.py`, which is
not under `src/`).  Only its identity matters to the cycle-manager claims,
so it is an opaque tag. -/
structure NEBConf where
  tag : Nat
deriving DecidableEq, Repr

/-- Modelled from the spec: the cycle-manager hyperparameters
(`AutoNEBHyperparameters`, also outside `src/`), restricted to the two
fields `auto_neb` reads: the total cycle count and the list of per-cycle
NEB configurations. -/
structure AutoNEBConf where
  cycle_count : Nat
  hyperparameter_sets : List NEBConf
deriving DecidableEq, Repr

/-- Lines 84–87 of the source: the resumption branch of `auto_neb`.
`existing_edges` is the keyed view `graph[m1][m2]`; the code evaluates
`max(existing_edges[m1][m2])`, i.e. it indexes the view by the node `m1`
(`KeyError` unless `m1` happens to be a cycle key) and then indexes the
resulting string-keyed attribute dict by the node `m2`, which always raises
`KeyError`.  The subsequent `max`, seed load and `start_cycle_idx`
assignment are unreachable. -/
def autoNebResume (existing_edges : List (Nat × PyDict)) (m1 m2 : Nat) :
    Except PyErr (PyDict × Nat) := do
  let inner ← multiViewGet existing_edges m1
  let impossible ← pyDictIntIndex inner m2
  impossible.elim

/-- Lines 88–93 of the source: the fresh-start branch.  Reads each
minimum's `coords` node attribute (`KeyError` if missing), reshapes it to a
row (`view(1, -1)` needs a 1-D tensor) and concatenates the two rows; the
target distances are `torch.ones(1)`. -/
def autoNebFreshSeed (g : MGraph) (m1 m2 : Nat) : Except PyErr (PyDict × Nat) := do
  let row := fun (m : Nat) =>
    match keyLookup m g.nodes with
    | none => Except.error PyErr.keyError
    | some attrs =>
      match dictGet attrs "coords" with
      | some (PyVal.t1 c) => Except.ok c
      | some _ => Except.error PyErr.typeError
      | none => Except.error PyErr.keyError
  let c1 ← row m1
  let c2 ← row m2
  Except.ok ([("path_coords", PyVal.t2 [c1, c2]),
              ("target_distances", PyVal.t1 [1])], 1)

/-- Lines 96–100 of the source: the refinement loop, run faithfully.  Each
iteration selects `config.hyperparameter_sets[start_cycle_idx - 1]` and then
evaluates `neb(m1, m2, previous_cycle_data, model, cycle_config)` — five
positional arguments against the three-parameter
`def neb(previous_cycle_data, model, config)`, which raises `TypeError`
before `neb`'s body can run, so `graph.add_edge` is never reached.  The
error value carries the graph as it stood when the exception was raised
(Python mutates the graph in place). -/
def autoNebRun (config : AutoNEBConf) (start_cycle_idx : Nat) :
    List Nat → MGraph → Except (PyErr × MGraph) MGraph
  | [], g => Except.ok g
  | _cycle_idx :: _rest, g =>
    match pyListGet config.hyperparameter_sets (start_cycle_idx - 1) with
    | Except.error e => Except.error (e, g)
    | Except.ok _cycle_config => Except.error (PyErr.typeError, g)

/-- Lines 81–100 of the source: the Cycle Manager `auto_neb(m1, m2, graph,
model, config)`.  The model parameter is irrelevant to every reachable
path, so it is not threaded.  On an exception the error value carries the
graph at the moment of the raise. -/
def auto_neb (m1 m2 : Nat) (g : MGraph) (config : AutoNEBConf) :
    Except (PyErr × MGraph) MGraph :=
  match mgAdj g m1 m2 with
  | Except.error e => Except.error (e, g)
  | Except.ok existing_edges =>
    match
      (if existing_edges.length > 0 then
        autoNebResume existing_edges m1 m2
      else
        autoNebFreshSeed g m1 m2) with
    | Except.error e => Except.error (e, g)
    | Except.ok (_previous_cycle_data, start_cycle_idx) =>
      if start_cycle_idx ≤ config.cycle_count then
        autoNebRun config start_cycle_idx
          (List.range' start_cycle_idx (config.cycle_count + 1 - start_cycle_idx)) g
      else
        Except.error (PyErr.assertionError, g)

/-- `networkx` `MultiGraph.add_edge(m1, m2, key=k, **d)`: missing endpoints
are added as attribute-less nodes; an existing edge with the same unordered
pair and key has its attribute dict updated, otherwise a new parallel edge
is appended. -/
def mgAddEdge (g : MGraph) (m1 m2 k : Nat) (d : PyDict) : MGraph :=
  let ns0 := if hasNode g m1 then g.nodes else g.nodes ++ [(m1, [])]
  let g1 : MGraph := ⟨ns0, g.edges⟩
  let ns1 := if hasNode g1 m2 then g1.nodes else g1.nodes ++ [(m2, [])]
  if g.edges.any (fun e => pairEqb e.u e.v m1 m2 && e.key == k) then
    ⟨ns1, g.edges.map (fun e =>
      if pairEqb e.u e.v m1 m2 && e.key == k then
        { e with data := dictUpdate e.data d }
      else e)⟩
  else
    ⟨ns1, g.edges ++ [⟨m1, m2, k, d⟩]⟩

/-- The dataflow of the refinement loop, lines 96–100 of the source, taken
in isolation: the Path Optimizer round is abstracted as the black-box
function `nebF` of the data the call site supplies, namely
`previous_cycle_data` and `cycle_config`, matching the parameter list of
`def neb(previous_cycle_data, model, config)` with the fixed model curried
away (the call site's two stray leading arguments are the arity defect
recorded by `autoNebRun`).  Exactly as in the source, `previous_cycle_data`
is a loop-invariant binding: it is never rebound to `connection_data`.
Returns the trace of `(cycle_idx, data passed to the optimizer, config
used)` triples alongside the final graph. -/
def autoNebLoopGo (nebF : PyDict → NEBConf → PyDict) (m1 m2 : Nat)
    (config : AutoNEBConf) (previous_cycle_data : PyDict) (start_cycle_idx : Nat) :
    List Nat → MGraph → Except PyErr (List (Nat × PyDict × NEBConf) × MGraph)
  | [], g => Except.ok ([], g)
  | cycle_idx :: rest, g =>
    match pyListGet config.hyperparameter_sets (start_cycle_idx - 1) with
    | Except.error e => Except.error e
    | Except.ok cycle_config =>
      let connection_data := nebF previous_cycle_data cycle_config
      match autoNebLoopGo nebF m1 m2 config previous_cycle_data start_cycle_idx
          rest (mgAddEdge g m1 m2 cycle_idx connection_data) with
      | Except.error e => Except.error e
      | Except.ok (tr, gfin) =>
          Except.ok ((cycle_idx, previous_cycle_data, cycle_config) :: tr, gfin)

/-- The refinement loop over `range(start_cycle_idx, cycle_count + 1)`. -/
def autoNebLoop (nebF : PyDict → NEBConf → PyDict) (m1 m2 : Nat) (g : MGraph)
    (config : AutoNEBConf) (previous_cycle_data : PyDict) (start_cycle_idx : Nat) :
    Except PyErr (List (Nat × PyDict × NEBConf) × MGraph) :=
  autoNebLoopGo nebF m1 m2 config previous_cycle_data start_cycle_idx
    (List.range' start_cycle_idx (config.cycle_count + 1 - start_cycle_idx)) g

/-- The progress reporter bound by `with pbar(...) as bar`.  `enterBinds`
is what the context manager's `__enter__` returns: `some ()` models an
object carrying a no-op `update` method, `none` models Python `None`. -/
structure Reporter where
  enterBinds : Option Unit
deriving DecidableEq, Repr

/-- Modelled from the spec: the real `tqdm` progress bar (an external,
optional dependency), whose `__enter__` returns the bar itself, on which
`update` succeeds. -/
def tqdmReporter : Reporter := ⟨some ()⟩

/-- Lines 15–29 of the source: the fallback `pbar` class used when `tqdm`
is unavailable.  Its `__enter__` body is `pass`, so it returns `None`. -/
def fallbackPbar : Reporter := ⟨none⟩

/-- `bar.update()` on the object bound by `with ... as bar`: calling a
method on `None` raises `AttributeError`. -/
def barUpdate : Option Unit → Except PyErr Unit
  | some _ => Except.ok ()
  | none => Except.error PyErr.attributeError

/-- The `while True` body of `landscape_exploration`, fuelled (the source
loop has no iteration cap; `none` in the result means the fuel ran out, an
outcome no actual Python run exhibits before the fuel bound).
`suggest_pair` is modelled from the spec as an oracle returning a pair or
the `(None, None)` sentinel (`torch_autoneb/suggest.py` is not under
`src/`); the body calls the in-source Cycle Manager `auto_neb` (line 110)
with the model irrelevant as in `auto_neb` and `config.auto_neb_config`
passed through, then `bar.update()` (line 111). -/
def landscapeLoop (suggest : MGraph → Option (Nat × Nat))
    (config : AutoNEBConf)
    (bar : Option Unit) : Nat → MGraph → Except (PyErr × MGraph) (Option MGraph)
  | 0, _g => Except.ok none
  | fuel + 1, g =>
    match suggest g with
    | none => Except.ok (some g)
    | some (m1, m2) =>
      match auto_neb m1 m2 g config with
      | Except.error e => Except.error e
      | Except.ok g' =>
        match barUpdate bar with
        | Except.error e => Except.error (e, g')
        | Except.ok _ => landscapeLoop suggest config bar fuel g'

/-- Lines 103–111 of the source: `landscape_exploration`, calling the
in-source `auto_neb` each round, with the reporter injected (`pbar` is
`tqdm` when available, else the fallback class) and the out-of-source
`suggest_pair` an oracle as in `landscapeLoop`. -/
def landscape_exploration (suggest : MGraph → Option (Nat × Nat))
    (config : AutoNEBConf)
    (reporter : Reporter) (fuel : Nat) (g : MGraph) :
    Except (PyErr × MGraph) (Option MGraph) :=
  landscapeLoop suggest config reporter.enterBinds fuel g

/-- One edge of the reduced simple graph (`networkx.Graph`): an unordered
endpoint pair, stored with the orientation it was first added with, plus
its attribute dict. -/
structure SEdge where
  u : Nat
  v : Nat
  data : PyDict
deriving DecidableEq, Repr

/-- The reduced `networkx.Graph`: insertion-ordered nodes and at most one
edge per unordered pair. -/
structure SGraph where
  nodes : List (Nat × PyDict)
  edges : List SEdge
deriving DecidableEq, Repr

/-- Membership of a node in the simple graph. -/
def hasNodeS (s : SGraph) (m : Nat) : Bool :=
  keyMem m s.nodes

/-- `Graph.add_node(n, **d)`: update the attributes of an existing node in
place, otherwise append the node. -/
def sAddNode (s : SGraph) (n : Nat) (d : PyDict) : SGraph :=
  if hasNodeS s n then
    ⟨s.nodes.map (fun p => if p.1 == n then (p.1, dictUpdate p.2 d) else p), s.edges⟩
  else
    ⟨s.nodes ++ [(n, d)], s.edges⟩

/-- `Graph.add_edge(m1, m2, **d)`: missing endpoints are added, and an
existing edge for the unordered pair has its attribute dict updated
(keeping its stored orientation), otherwise the edge is appended. -/
def sAddEdge (s : SGraph) (m1 m2 : Nat) (d : PyDict) : SGraph :=
  let ns0 := if hasNodeS s m1 then s.nodes else s.nodes ++ [(m1, [])]
  let s1 : SGraph := ⟨ns0, s.edges⟩
  let ns1 := if hasNodeS s1 m2 then s1.nodes else s1.nodes ++ [(m2, [])]
  if s.edges.any (fun e => pairEqb e.u e.v m1 m2) then
    ⟨ns1, s.edges.map (fun e =>
      if pairEqb e.u e.v m1 m2 then { e with data := dictUpdate e.data d } else e)⟩
  else
    ⟨ns1, s.edges ++ [⟨m1, m2, d⟩]⟩

/-- The key function of the reducer's `min`, i.e.
`lambda key: graph[m1][m2][key][weight_key]`: look the cycle key up in the
keyed view and read its weight attribute; `KeyError` when either is
missing, `TypeError` when the attribute is not a scalar (Python could not
order it). -/
def weightOf (kd : List (Nat × PyDict)) (wk : String) (k : Nat) :
    Except PyErr Int :=
  match multiViewGet kd k with
  | Except.error e => Except.error e
  | Except.ok d =>
    match dictGet d wk with
    | some (PyVal.int w) => Except.ok w
    | some _ => Except.error PyErr.typeError
    | none => Except.error PyErr.keyError

/-- Scan step of Python's `min(iterable, key=f)`: the running best is
replaced only on a strictly smaller key value, so the first minimum wins
ties. -/
def pyMinByGo (f : Nat → Except PyErr Int) :
    List Nat → Nat → Int → Except PyErr Nat
  | [], bk, _ => Except.ok bk
  | k :: ks, bk, bw =>
    match f k with
    | Except.error e => Except.error e
    | Except.ok w =>
      if w < bw then pyMinByGo f ks k w else pyMinByGo f ks bk bw

/-- Python `min(seq, key=f)`: `ValueError` on an empty sequence, otherwise
the first element attaining the minimal key value. -/
def pyMinBy (f : Nat → Except PyErr Int) : List Nat → Except PyErr Nat
  | [] => Except.error (PyErr.valueError "min() arg is an empty sequence")
  | k :: ks =>
    match f k with
    | Except.error e => Except.error e
    | Except.ok w => pyMinByGo f ks k w

/-- Overwrite the attribute dict of the edge with the given pair and key
(the in-place effect of assigning through the `best_edge_data` alias). -/
def mgSetEdgeData (g : MGraph) (a b k : Nat) (d : PyDict) : MGraph :=
  ⟨g.nodes, g.edges.map (fun e =>
    if pairEqb e.u e.v a b && e.key == k then { e with data := d } else e)⟩

/-- Lines 121–127 of the source: the body of the reducer's double loop for
one ordered pair `(m1, m2)`: pick `best_edge_key` by `min` over the keyed
view of the *current* multigraph, set `best_edge_data["cycle_idx"] =
best_edge_key` — which mutates the multigraph's own attribute dict through
the alias — and `add_edge` the resulting bindings into the simple graph. -/
def reducePair (wk : String) (m1 m2 : Nat) (st : SGraph × MGraph) :
    Except PyErr (SGraph × MGraph) :=
  let kd := edgesBetween st.2 m1 m2
  match pyMinBy (weightOf kd wk) (kd.map Prod.fst) with
  | Except.error e => Except.error e
  | Except.ok best_edge_key =>
    match multiViewGet kd best_edge_key with
    | Except.error e => Except.error e
    | Except.ok best_edge_data =>
      let d2 := dictSet best_edge_data "cycle_idx" (PyVal.int (best_edge_key : Int))
      Except.ok (sAddEdge st.1 m1 m2 d2, mgSetEdgeData st.2 m1 m2 best_edge_key d2)

/-- Deduplicate keeping first occurrences (the order in which a
`networkx` adjacency view lists neighbours). -/
def dedupAux : List Nat → List Nat → List Nat
  | [], _ => []
  | x :: xs, seen =>
    if x ∈ seen then dedupAux xs seen else x :: dedupAux xs (x :: seen)

/-- The neighbour iteration `for m2 in graph[m1]`: the other endpoint of
each incident edge, in first-connection order, without repetition. -/
def neighbors (g : MGraph) (m1 : Nat) : List Nat :=
  dedupAux (g.edges.filterMap (fun e =>
    if e.u == m1 then some e.v else if e.v == m1 then some e.u else none)) []

/-- The inner loop `for m2 in graph[m1]` of the reducer. -/
def reduceInner (wk : String) (m1 : Nat) :
    List Nat → SGraph × MGraph → Except PyErr (SGraph × MGraph)
  | [], st => Except.ok st
  | m2 :: rest, st =>
    match reducePair wk m1 m2 st with
    | Except.error e => Except.error e
    | Except.ok st' => reduceInner wk m1 rest st'

/-- The outer loop `for m1 in graph` of the reducer; the neighbour list is
read from the multigraph as it stands when `m1`'s turn comes. -/
def reduceOuter (wk : String) :
    List Nat → SGraph × MGraph → Except PyErr (SGraph × MGraph)
  | [], st => Except.ok st
  | m1 :: rest, st =>
    match reduceInner wk m1 (neighbors st.2 m1) st with
    | Except.error e => Except.error e
    | Except.ok st' => reduceOuter wk rest st'

/-- Lines 114–130 of the source: `to_simple_graph(graph, weight_key)`.
Returns the new simple graph together with the multigraph as it stands
after the reduction (the Python function mutates its argument through the
`best_edge_data` aliases and returns only the simple graph). -/
def to_simple_graph (g : MGraph) (weight_key : String) :
    Except PyErr (SGraph × MGraph) :=
  let simple0 := g.nodes.foldl (fun s p => sAddNode s p.1 p.2) ⟨[], []⟩
  reduceOuter weight_key (g.nodes.map Prod.fst) (simple0, g)

/-- Functional spec: the weight attribute as a total function (meaningful
whenever the dict holds a scalar there, which well-formedness below
guarantees). -/
def weightD (d : PyDict) (wk : String) : Int :=
  match dictGet d wk with
  | some (PyVal.int w) => w
  | _ => 0

/-- Functional spec: the dict stored under a cycle key in a keyed view. -/
def lookupKeyD (kd : List (Nat × PyDict)) (k : Nat) : PyDict :=
  (keyLookup k kd).getD []

/-- Functional spec: the weight reached through a cycle key of a view. -/
def keyWeightD (wk : String) (kd : List (Nat × PyDict)) (k : Nat) : Int :=
  weightD (lookupKeyD kd k) wk

/-- Total counterpart of `pyMinByGo`. -/
def firstMinGo (w : Nat → Int) : List Nat → Nat → Int → Nat
  | [], bk, _ => bk
  | k :: ks, bk, bw =>
    if w k < bw then firstMinGo w ks k (w k) else firstMinGo w ks bk bw

/-- Total counterpart of `pyMinBy` (0 on the empty list, a case the
reducer never reaches). -/
def firstMinKey (w : Nat → Int) : List Nat → Nat
  | [] => 0
  | k :: ks => firstMinGo w ks k (w k)

/-- Functional spec: the cycle key the reducer selects for a pair — the
first key of the pair's view attaining the minimal weight. -/
def bestKeyOf (wk : String) (g : MGraph) (a b : Nat) : Nat :=
  firstMinKey (keyWeightD wk (edgesBetween g a b)) ((edgesBetween g a b).map Prod.fst)

/-- Functional spec: the attribute dict the reducer writes for a pair —
the selected cycle's dict with `cycle_idx` set to the selected key. -/
def finalData (wk : String) (g : MGraph) (a b : Nat) : PyDict :=
  dictSet (lookupKeyD (edgesBetween g a b) (bestKeyOf wk g a b)) "cycle_idx"
    (PyVal.int ((bestKeyOf wk g a b : Nat) : Int))

/-- Functional spec: mark one multigraph edge the way the reducer's alias
write does, when its pair has been processed: the selected cycle of its
pair gains `cycle_idx`; its siblings are untouched. -/
def markEdge (wk : String) (g0 : MGraph) (e : MEdge) : MEdge :=
  if e.key == bestKeyOf wk g0 e.u e.v then
    { e with data := dictSet e.data "cycle_idx" (PyVal.int ((e.key : Nat) : Int)) }
  else e

/-- Is the unordered pair `(a, b)` among the processed pairs? -/
def pairMem (a b : Nat) (S : List (Nat × Nat)) : Bool :=
  S.any (fun p => pairEqb p.1 p.2 a b)

/-- Functional spec: the multigraph after the pairs in `S` have been
processed by the reducer. -/
def markGraph (wk : String) (g0 : MGraph) (S : List (Nat × Nat)) : MGraph :=
  ⟨g0.nodes, g0.edges.map (fun e =>
    if pairMem e.u e.v S then markEdge wk g0 e else e)⟩

/-- Functional spec: the simple graph after the pairs in `S` (listed in
first-processing order and orientation) have been processed. -/
def simpleState (wk : String) (g0 : MGraph) (S : List (Nat × Nat)) : SGraph :=
  ⟨g0.nodes, S.map (fun p => ⟨p.1, p.2, finalData wk g0 p.1 p.2⟩)⟩

/-- Record a processed ordered pair, unless its unordered pair is already
recorded. -/
def addPair (S : List (Nat × Nat)) (a b : Nat) : List (Nat × Nat) :=
  if pairMem a b S then S else S ++ [(a, b)]

/-- Record the pairs processed by one inner loop. -/
def addNbrs (a : Nat) : List Nat → List (Nat × Nat) → List (Nat × Nat)
  | [], S => S
  | m :: ms, S => addNbrs a ms (addPair S a m)

/-- Record the pairs processed by the whole double loop. -/
def processNodes (g0 : MGraph) : List Nat → List (Nat × Nat) → List (Nat × Nat)
  | [], S => S
  | a :: rest, S => processNodes g0 rest (addNbrs a (neighbors g0 a) S)

/-- Does the dict hold a scalar under the given attribute name? -/
def hasIntAt (d : PyDict) (wk : String) : Bool :=
  match dictGet d wk with
  | some (PyVal.int _) => true
  | _ => false

/-- Well-formedness of a multigraph for a weight key, as established by the
system itself: distinct node identifiers, no self-loops, edge endpoints
present as nodes, attribute dicts with distinct keys holding a scalar at
the weight key, at most one parallel edge per pair and cycle index, and a
weight key other than the reserved `cycle_idx`. -/
def WF (g : MGraph) (wk : String) : Prop :=
  wk ≠ "cycle_idx" ∧
  (g.nodes.map Prod.fst).Nodup ∧
  (∀ e ∈ g.edges, e.u ≠ e.v ∧ hasNode g e.u = true ∧ hasNode g e.v = true ∧
    (e.data.map Prod.fst).Nodup ∧ hasIntAt e.data wk = true) ∧
  List.Pairwise (fun e1 e2 =>
    (pairEqb e1.u e1.v e2.u e2.v && e1.key == e2.key) = false) g.edges

/-- Well-formedness is checkable on concrete graphs. -/
instance decWF (g : MGraph) (wk : String) : Decidable (WF g wk) :=
  decidable_of_iff
    (wk ≠ "cycle_idx" ∧
     (g.nodes.map Prod.fst).Nodup ∧
     (∀ e ∈ g.edges, e.u ≠ e.v ∧ hasNode g e.u = true ∧ hasNode g e.v = true ∧
       (e.data.map Prod.fst).Nodup ∧ hasIntAt e.data wk = true) ∧
     List.Pairwise (fun e1 e2 : MEdge =>
       (pairEqb e1.u e1.v e2.u e2.v && e1.key == e2.key) = false) g.edges)
    Iff.rfl

/-- Invariant of the reducer's processed-pair list: every recorded pair
has edges, and no unordered pair is recorded twice. -/
def SOK (g : MGraph) (S : List (Nat × Nat)) : Prop :=
  (∀ p ∈ S, edgesBetween g p.1 p.2 ≠ []) ∧
  List.Pairwise (fun p q => pairEqb p.1 p.2 q.1 q.2 = false) S

/-- The element at position `i` is a minimum of `w` over the list, and
every earlier element is strictly larger: Python's
`min(..., key=w)` tie-break. -/
def IsFirstMin (w : Nat → Int) (ks : List Nat) (k : Nat) : Prop :=
  ∃ i, ks.get? i = some k ∧ (∀ k' ∈ ks, w k ≤ w k') ∧
    (∀ j k', j < i → ks.get? j = some k' → w k < w k')

/-- The reducer's contract (claim C5): reduction succeeds, node attributes
are copied, and for every pair present in the multigraph the simple graph
holds exactly one edge, whose attribute dict is some sibling cycle's dict
augmented with `cycle_idx` set to that cycle's key, where that sibling is
the first cycle in the pair's edge-key iteration order attaining the
minimal weight-key value. -/
def ReducerSpec (g : MGraph) (wk : String) : Prop :=
  ∃ s gmut, to_simple_graph g wk = Except.ok (s, gmut) ∧
    s.nodes = g.nodes ∧
    (∀ e ∈ s.edges, edgesBetween g e.u e.v ≠ []) ∧
    (∀ a b, edgesBetween g a b ≠ [] →
      (s.edges.filter (fun e => pairEqb e.u e.v a b)).length = 1 ∧
      (∀ e ∈ s.edges, pairEqb e.u e.v a b = true →
        ∃ i k d, (edgesBetween g a b).get? i = some (k, d) ∧
          e.data = dictSet d "cycle_idx" (PyVal.int (k : Int)) ∧
          dictGet e.data "cycle_idx" = some (PyVal.int (k : Int)) ∧
          dictGet e.data wk = dictGet d wk ∧
          (∀ p ∈ edgesBetween g a b, weightD d wk ≤ weightD p.2 wk) ∧
          (∀ j p, j < i → (edgesBetween g a b).get? j = some p →
            weightD d wk < weightD p.2 wk)))

/-- The reducer's frame contract (claim C6 as amended): the simple graph
copies the node list; the input multigraph keeps its nodes, its edge
skeleton and its edge order, and each edge record afterwards is either its
original value or its original value with `cycle_idx` set to its own key
(the selected cycle of its pair). -/
def MutationSpec (g : MGraph) (wk : String) : Prop :=
  ∃ s gmut, to_simple_graph g wk = Except.ok (s, gmut) ∧
    s.nodes = g.nodes ∧
    gmut.nodes = g.nodes ∧
    gmut.edges.length = g.edges.length ∧
    (∀ i e e', g.edges.get? i = some e → gmut.edges.get? i = some e' →
      e'.u = e.u ∧ e'.v = e.v ∧ e'.key = e.key ∧
      (e'.data = e.data ∨
        e'.data = dictSet e.data "cycle_idx" (PyVal.int (e.key : Int))))

/-- A deserialized pickle payload as far as `load_pickle_graph` inspects
it: an `nx.MultiGraph`, a plain `nx.Graph` (not a multigraph), or any
other object. -/
inductive PyObj where
  | multiGraph : MGraph → PyObj
  | plainGraph : PyObj
  | other : PyObj
deriving DecidableEq, Repr

/-- Python `isinstance(graph, nx.MultiGraph)`. -/
def isMultiGraph : PyObj → Bool
  | PyObj.multiGraph _ => true
  | _ => false

/-- Lines 133–140 of the source: `load_pickle_graph`, with the unpickled
object passed in place of the byte stream (the pickle byte format is out
of scope).  A multigraph is returned unchanged; anything else raises
`ValueError(f"{graph_file_name} does not contain a nx.MultiGraph")`. -/
def load_pickle_graph (graph_file_name : String) (loaded : PyObj) :
    Except PyErr MGraph :=
  match loaded with
  | PyObj.multiGraph g => Except.ok g
  | _ => Except.error
      (PyErr.valueError (graph_file_name ++ " does not contain a nx.MultiGraph"))

/-- Concrete minima used by the example graphs: node 0. -/
def exCoords0 : PyDict := [("coords", PyVal.t1 [0, 0])]

/-- Concrete minima used by the example graphs: node 1. -/
def exCoords1 : PyDict := [("coords", PyVal.t1 [10, 10])]

/-- Two minima, no edges between them: a fresh pair for the Cycle Manager. -/
def gFreshEx : MGraph := ⟨[(0, exCoords0), (1, exCoords1)], []⟩

/-- A cycle-manager configuration with two cycles. -/
def cfgEx : AutoNEBConf := ⟨2, [⟨7⟩, ⟨8⟩]⟩

/-- A cycle-manager configuration with a single cycle. -/
def cfgOne : AutoNEBConf := ⟨1, [⟨7⟩]⟩

/-- The two-image seed the fresh-start branch would build for `gFreshEx`. -/
def seedEx : PyDict :=
  [("path_coords", PyVal.t2 [[0, 0], [10, 10]]), ("target_distances", PyVal.t1 [1])]

/-- A concrete Path-Optimizer black box whose output differs from its
input. -/
def nebFEx : PyDict → NEBConf → PyDict :=
  fun d _ => dictSet d "weight" (PyVal.int 3)

/-- `nebFEx` applied to the seed. -/
def dEx3 : PyDict := seedEx ++ [("weight", PyVal.int 3)]

/-- The call trace of the example refinement loop. -/
def trEx : List (Nat × PyDict × NEBConf) := [(1, seedEx, ⟨7⟩), (2, seedEx, ⟨7⟩)]

/-- The multigraph produced by the example refinement loop. -/
def gLoopEx : MGraph := ⟨gFreshEx.nodes, [⟨0, 1, 1, dEx3⟩, ⟨0, 1, 2, dEx3⟩]⟩

/-- An edge of the reducer scenario: pair `(0, 1)`, given key and weight. -/
def edge522 (k : Nat) (w : Int) : MEdge :=
  ⟨0, 1, k, [("path_coords", PyVal.t2 [[0, 0], [5, 5], [10, 10]]),
             ("target_distances", PyVal.t1 [1, 1]),
             ("weight", PyVal.int w)]⟩

/-- The spec's reducer scenario: one pair with three cycles of weights
`[5, 2, 2]` at keys `1, 2, 3`. -/
def g522 : MGraph := ⟨[(0, exCoords0), (1, exCoords1)], [edge522 1 5, edge522 2 2, edge522 3 2]⟩

/-- `g522` as the reducer leaves it: cycle 2's dict has gained
`cycle_idx`. -/
def g522mut : MGraph :=
  ⟨g522.nodes,
   [edge522 1 5,
    { edge522 2 2 with data := (edge522 2 2).data ++ [("cycle_idx", PyVal.int 2)] },
    edge522 3 2]⟩

/-- The simple graph the reducer returns for `g522`. -/
def s522 : SGraph :=
  ⟨g522.nodes, [⟨0, 1, (edge522 2 2).data ++ [("cycle_idx", PyVal.int 2)]⟩]⟩

/-- A stored cycle between nodes 10 and 20, for the resumption scenario. -/
def edgeResData : PyDict :=
  [("path_coords", PyVal.t2 [[0], [5], [9]]),
   ("target_distances", PyVal.t1 [1, 1]),
   ("weight", PyVal.int 5)]

/-- A pair that already has one cycle (key 1) in the graph. -/
def gResEx : MGraph :=
  ⟨[(10, [("coords", PyVal.t1 [0])]), (20, [("coords", PyVal.t1 [9])])],
   [⟨10, 20, 1, edgeResData⟩]⟩

/-- A suggestion oracle that proposes the pair `(0, 1)` until some edge
exists, then signals exhaustion with the `(None, None)` sentinel. -/
def suggFreshPair : MGraph → Option (Nat × Nat) :=
  fun g => if g.edges = [] then some (0, 1) else none

/-- A small multigraph for the persistence round-trip. -/
def gLoadEx : MGraph := ⟨[(0, exCoords0), (1, exCoords1)], [⟨0, 1, 1, edgeResData⟩]⟩

/-- Shared fact behind the Cycle Manager claims: on every input,
`auto_neb` raises `KeyError` (leaving the graph unmutated) — line 83 for
a non-adjacent pair, line 85/86 for a pair with existing edges — before
the assert, the seed branch or the loop can run. -/
theorem auto_neb_keyError_all (m1 m2 : Nat) (g : MGraph) (config : AutoNEBConf) :
    auto_neb m1 m2 g config = Except.error (PyErr.keyError, g) := by
  have hres : ∀ kd, autoNebResume kd m1 m2 = Except.error PyErr.keyError := by
    intro kd
    unfold autoNebResume multiViewGet pyDictIntIndex
    cases keyLookup m1 kd <;> rfl
  by_cases h1 : hasNode g m1 = false
  · simp [auto_neb, mgAdj, h1]
  · by_cases h2 : edgesBetween g m1 m2 = []
    · simp [auto_neb, mgAdj, h1, h2]
    · have hlen : 0 < (edgesBetween g m1 m2).length := List.length_pos.mpr h2
      simp [auto_neb, mgAdj, h1, h2, hlen, hres]

/-- C7: contrary to the claim, no invocation of `auto_neb` ever selects a
hyperparameter set: every call raises `KeyError` (at `graph[m1][m2]` or
`existing_edges[m1][m2]`) before the loop's selection
`config.hyperparameter_sets[start_cycle_idx - 1]` at line 97 can run, so
the hyperparameter list is observationally irrelevant — replacing it by
the empty list changes nothing, and in particular no set is used "exactly
once" or "for every loop iteration". -/
theorem auto_neb_never_selects_hyperparameters (m1 m2 : Nat) (g : MGraph)
    (n : Nat) (hs : List NEBConf) :
    auto_neb m1 m2 g ⟨n, hs⟩ = auto_neb m1 m2 g ⟨n, []⟩ := by
  rw [auto_neb_keyError_all, auto_neb_keyError_all]

/-- C1: the refinement loop does not chain rounds — `previous_cycle_data`
is never rebound, so round 2 receives the original seed, not round 1's
result (which here differs from the seed). -/
theorem auto_neb_second_round_reuses_seed :
    autoNebLoop nebFEx 0 1 gFreshEx cfgEx seedEx 1 = Except.ok (trEx, gLoopEx) ∧
    trEx.get? 0 = some (1, seedEx, ⟨7⟩) ∧
    trEx.get? 1 = some (2, seedEx, ⟨7⟩) ∧
    nebFEx seedEx ⟨7⟩ ≠ seedEx := by
  refine ⟨rfl, rfl, rfl, by decide⟩

/-- C2: on a fresh pair with `cycle_count = 2` (precondition satisfied,
`start_cycle_idx` would be 1), `auto_neb` raises `KeyError` at
`graph[m1][m2]` before the loop, inserting no edge at all: the pair's set
of cycle indices afterwards is empty, not `{1, 2}`. -/
theorem auto_neb_inserts_no_edges :
    auto_neb 0 1 gFreshEx cfgEx = Except.error (PyErr.keyError, gFreshEx) ∧
    edgesBetween gFreshEx 0 1 = [] := ⟨rfl, rfl⟩

/-- C3: on a pair that already has a cycle (key 1), `auto_neb` raises
`KeyError` evaluating `existing_edges[m1][m2]` instead of computing
`max(existing cycle indices)` and seeding from the stored cycle. -/
theorem auto_neb_resume_raises_keyError :
    auto_neb 10 20 gResEx cfgEx = Except.error (PyErr.keyError, gResEx) := rfl

/-- C4: on a pair with no existing edges, `auto_neb` fails: `graph[m1][m2]`
raises `KeyError` for non-adjacent nodes, so the fresh-start seed branch is
never reached. -/
theorem auto_neb_fresh_raises_keyError :
    auto_neb 0 1 gFreshEx cfgOne = Except.error (PyErr.keyError, gFreshEx) := rfl

/-- C8: `auto_neb` never raises `AssertionError` — on every input it
raises `KeyError` (with the graph unmutated) before the
`assert start_cycle_idx <= config.cycle_count` line can run, whether or
not the precondition holds. -/
theorem auto_neb_assert_never_raised (m1 m2 : Nat) (g : MGraph) (config : AutoNEBConf) :
    auto_neb m1 m2 g config = Except.error (PyErr.keyError, g) :=
  auto_neb_keyError_all m1 m2 g config

/-- C9: `load_pickle_graph` returns a deserialized multigraph unchanged,
and on any other object raises `ValueError` with a message naming the
offending source file. -/
theorem load_pickle_graph_validates (name : String) (obj : PyObj) :
    (∀ g, obj = PyObj.multiGraph g → load_pickle_graph name obj = Except.ok g) ∧
    (isMultiGraph obj = false →
      load_pickle_graph name obj =
        Except.error (PyErr.valueError (name ++ " does not contain a nx.MultiGraph"))) := by
  constructor
  · intro g h; subst h; rfl
  · intro h; cases obj with
    | multiGraph g => simp [isMultiGraph] at h
    | plainGraph => rfl
    | other => rfl

/-- Witness for C9: a multigraph round-trips unchanged; a plain graph
object is rejected with the file name in the message. -/
theorem load_pickle_graph_validates_witness :
    load_pickle_graph "graph.pkl" (PyObj.multiGraph gLoadEx) = Except.ok gLoadEx ∧
    load_pickle_graph "graph.pkl" PyObj.plainGraph =
      Except.error (PyErr.valueError ("graph.pkl" ++ " does not contain a nx.MultiGraph")) :=
  ⟨(load_pickle_graph_validates "graph.pkl" (PyObj.multiGraph gLoadEx)).1 gLoadEx rfl,
   (load_pickle_graph_validates "graph.pkl" PyObj.plainGraph).2 rfl⟩

/-- C10: the fallback reporter never changes the behaviour of
`landscape_exploration`: for every suggestion oracle, configuration, fuel
and starting graph, the run under the fallback `pbar` is identical to the
run under `tqdm` — no failure is ever caused by the progress reporter
(`bar.update()` at line 111 is unreachable, since `auto_neb` raises
`KeyError` first, and the sentinel path never touches `bar`) — and a run
whose suggestion is the `(None, None)` sentinel terminates successfully
via the sentinel under the fallback.  On the concrete fresh-pair scenario
both reporters yield the same `KeyError`, originating in `auto_neb`, not
in the reporter. -/
theorem fallback_pbar_matches_tqdm (suggest : MGraph → Option (Nat × Nat))
    (config : AutoNEBConf) (fuel : Nat) (g : MGraph) :
    landscape_exploration suggest config fallbackPbar fuel g =
      landscape_exploration suggest config tqdmReporter fuel g ∧
    landscape_exploration (fun _g => none) config fallbackPbar (fuel + 1) g =
      Except.ok (some g) ∧
    landscape_exploration suggFreshPair cfgEx fallbackPbar 2 gFreshEx =
      Except.error (PyErr.keyError, gFreshEx) := by
  refine ⟨?_, rfl, rfl⟩
  cases fuel with
  | zero => rfl
  | succ n =>
    show landscapeLoop suggest config none (n + 1) g =
      landscapeLoop suggest config (some ()) (n + 1) g
    simp only [landscapeLoop]
    cases suggest g with
    | none => rfl
    | some p =>
      cases p with
      | mk m1 m2 => simp only [auto_neb_keyError_all]

/-- C6 counterexample: `to_simple_graph` does not leave its input
unchanged — on the three-cycle scenario graph the returned multigraph
state differs from the input (cycle 2's record gained `cycle_idx`). -/
theorem to_simple_graph_mutates_input :
    to_simple_graph g522 "weight" = Except.ok (s522, g522mut) ∧ g522mut ≠ g522 := by
  refine ⟨rfl, by decide⟩

theorem map_id_of_fix {α : Type} (l : List α) (f : α → α) (h : ∀ x ∈ l, f x = x) :
    l.map f = l := by
  induction l with
  | nil => rfl
  | cons x rest ih =>
    simp only [List.map_cons]
    rw [h x (List.mem_cons_self x rest), ih (fun y hy => h y (List.mem_cons_of_mem x hy))]

theorem keyLookup_cons {α β : Type} [BEq α] [LawfulBEq α] [DecidableEq α] (p : α × β)
    (rest : List (α × β)) (k : α) :
    keyLookup k (p :: rest) = if p.1 = k then some p.2 else keyLookup k rest := by
  simp [keyLookup, beq_iff_eq]

theorem keyMem_cons_iff {α β : Type} [BEq α] [LawfulBEq α] (p : α × β)
    (rest : List (α × β)) (k : α) :
    keyMem k (p :: rest) = true ↔ p.1 = k ∨ keyMem k rest = true := by
  simp [keyMem, beq_iff_eq]

theorem keyMem_iff {α β : Type} [BEq α] [LawfulBEq α] (k : α) (l : List (α × β)) :
    keyMem k l = true ↔ k ∈ l.map Prod.fst := by
  induction l with
  | nil => simp [keyMem]
  | cons p rest ih =>
    rw [keyMem_cons_iff, ih]
    simp only [List.map_cons, List.mem_cons]
    constructor
    · rintro (h | h)
      · exact Or.inl h.symm
      · exact Or.inr h
    · rintro (h | h)
      · exact Or.inl h.symm
      · exact Or.inr h

theorem dictGet_cons (p : String × PyVal) (rest : PyDict) (k : String) :
    dictGet (p :: rest) k = if p.1 = k then some p.2 else dictGet rest k :=
  keyLookup_cons p rest k

theorem dictGet_mapSet_ne (d : PyDict) (k : String) (v : PyVal) (k' : String)
    (h : k' ≠ k) :
    dictGet (d.map (fun p => if p.1 == k then (k, v) else p)) k' = dictGet d k' := by
  induction d with
  | nil => rfl
  | cons p rest ih =>
    simp only [List.map_cons]
    by_cases hp : p.1 = k
    · rw [if_pos (by simp [hp]), dictGet_cons, dictGet_cons]
      rw [if_neg (fun hh : (k, v).1 = k' => h hh.symm),
        if_neg (fun hh : p.1 = k' => h (hh ▸ hp))]
      exact ih
    · rw [if_neg (by simp [hp]), dictGet_cons, dictGet_cons]
      by_cases hk' : p.1 = k'
      · rw [if_pos hk', if_pos hk']
      · rw [if_neg hk', if_neg hk']
        exact ih

theorem dictGet_appendOne_ne (d : PyDict) (k : String) (v : PyVal) (k' : String)
    (h : k' ≠ k) :
    dictGet (d ++ [(k, v)]) k' = dictGet d k' := by
  induction d with
  | nil =>
    simp only [List.nil_append]
    rw [show dictGet [] k' = none from rfl, dictGet_cons,
      if_neg (fun hh : (k, v).1 = k' => h hh.symm)]
    rfl
  | cons p rest ih =>
    simp only [List.cons_append]
    rw [dictGet_cons, dictGet_cons]
    by_cases hk' : p.1 = k'
    · rw [if_pos hk', if_pos hk']
    · rw [if_neg hk', if_neg hk']
      exact ih

theorem dictGet_dictSet_ne (d : PyDict) (k : String) (v : PyVal) (k' : String)
    (h : k' ≠ k) : dictGet (dictSet d k v) k' = dictGet d k' := by
  unfold dictSet
  by_cases hm : keyMem k d = true
  · rw [if_pos hm]; exact dictGet_mapSet_ne d k v k' h
  · rw [if_neg (by simp [hm])]; exact dictGet_appendOne_ne d k v k' h

theorem dictGet_mapSet_self (d : PyDict) (k : String) (v : PyVal)
    (hm : keyMem k d = true) :
    dictGet (d.map (fun p => if p.1 == k then (k, v) else p)) k = some v := by
  induction d with
  | nil => simp [keyMem] at hm
  | cons p rest ih =>
    rw [keyMem_cons_iff] at hm
    simp only [List.map_cons]
    by_cases hp : p.1 = k
    · rw [if_pos (by simp [hp]), dictGet_cons, if_pos (show (k, v).1 = k from rfl)]
    · rw [if_neg (by simp [hp]), dictGet_cons, if_neg hp]
      rcases hm with hm | hm
      · exact absurd hm hp
      · exact ih hm

theorem dictGet_appendOne_self (d : PyDict) (k : String) (v : PyVal)
    (hm : keyMem k d = false) :
    dictGet (d ++ [(k, v)]) k = some v := by
  induction d with
  | nil =>
    simp only [List.nil_append]
    rw [dictGet_cons, if_pos (show (k, v).1 = k from rfl)]
  | cons p rest ih =>
    have hm' : ¬(p.1 = k ∨ keyMem k rest = true) := by
      intro hh
      rw [← keyMem_cons_iff p rest k] at hh
      rw [hm] at hh
      cases hh
    push_neg at hm'
    simp only [List.cons_append]
    rw [dictGet_cons, if_neg hm'.1]
    exact ih (by
      cases hrest : keyMem k rest
      · rfl
      · exact absurd hrest hm'.2)

theorem dictGet_dictSet_self (d : PyDict) (k : String) (v : PyVal) :
    dictGet (dictSet d k v) k = some v := by
  unfold dictSet
  by_cases hm : keyMem k d = true
  · rw [if_pos hm]; exact dictGet_mapSet_self d k v hm
  · rw [if_neg (by simp [hm])]
    exact dictGet_appendOne_self d k v (by
      cases hval : keyMem k d
      · rfl
      · exact absurd hval hm)

theorem keys_mapSet (d : PyDict) (k : String) (v : PyVal) :
    (d.map (fun p => if p.1 == k then (k, v) else p)).map Prod.fst = d.map Prod.fst := by
  induction d with
  | nil => rfl
  | cons p rest ih =>
    simp only [List.map_cons]
    by_cases hp : p.1 = k
    · rw [if_pos (by simp [hp])]
      simp only [List.map_cons, ih]
      rw [hp]
    · rw [if_neg (by simp [hp])]
      simp only [List.map_cons, ih]

theorem dictSet_keys_nodup (d : PyDict) (k : String) (v : PyVal)
    (h : (d.map Prod.fst).Nodup) : ((dictSet d k v).map Prod.fst).Nodup := by
  unfold dictSet
  by_cases hm : keyMem k d = true
  · rw [if_pos hm, keys_mapSet]; exact h
  · rw [if_neg (by simp [hm])]
    have hk : k ∉ d.map Prod.fst := by
      intro hmem
      rw [← keyMem_iff k d] at hmem
      simp [hmem] at hm
    simp only [List.map_append, List.map_cons, List.map_nil]
    rw [List.nodup_append]
    refine ⟨h, List.nodup_singleton _, ?_⟩
    intro a ha hb
    simp only [List.mem_singleton] at hb
    exact hk (hb ▸ ha)

theorem dict_self_get (d : PyDict) (hnd : (d.map Prod.fst).Nodup) :
    ∀ p ∈ d, dictGet d p.1 = some p.2 := by
  induction d with
  | nil => intro p hp; cases hp
  | cons q rest ih =>
    intro p hp
    simp only [List.map_cons, List.nodup_cons] at hnd
    rcases List.mem_cons.mp hp with hp | hp
    · subst hp
      rw [dictGet_cons, if_pos rfl]
    · have hq : q.1 ≠ p.1 := by
        intro hh
        exact hnd.1 (hh ▸ List.mem_map_of_mem Prod.fst hp)
      rw [dictGet_cons, if_neg hq]
      exact ih hnd.2 p hp

theorem dictGet_keyMem (d : PyDict) (k : String) (v : PyVal)
    (hget : dictGet d k = some v) : keyMem k d = true := by
  induction d with
  | nil => cases hget
  | cons p rest ih =>
    rw [dictGet_cons] at hget
    rw [keyMem_cons_iff]
    by_cases hp : p.1 = k
    · exact Or.inl hp
    · rw [if_neg hp] at hget
      exact Or.inr (ih hget)

theorem dictSet_eq_of_get (d : PyDict) (k : String) (v : PyVal)
    (hnd : (d.map Prod.fst).Nodup) (hget : dictGet d k = some v) :
    dictSet d k v = d := by
  unfold dictSet
  rw [if_pos (dictGet_keyMem d k v hget)]
  apply map_id_of_fix
  intro p hp
  by_cases hpk : p.1 = k
  · have hpv : dictGet d p.1 = some p.2 := dict_self_get d hnd p hp
    rw [hpk, hget] at hpv
    have hv : v = p.2 := by injection hpv
    rw [if_pos (by simp [hpk])]
    rw [hv, ← hpk]
  · rw [if_neg (by simp [hpk])]

theorem dictUpdate_eq_self (d : PyDict) (u : PyDict)
    (hnd : (d.map Prod.fst).Nodup) (h : ∀ p ∈ u, dictGet d p.1 = some p.2) :
    dictUpdate d u = d := by
  induction u with
  | nil => rfl
  | cons p rest ih =>
    show dictUpdate (dictSet d p.1 p.2) rest = d
    rw [dictSet_eq_of_get d p.1 p.2 hnd (h p (List.mem_cons_self p rest))]
    exact ih (fun q hq => h q (List.mem_cons_of_mem p hq))

theorem dictUpdate_self (d : PyDict) (hnd : (d.map Prod.fst).Nodup) :
    dictUpdate d d = d :=
  dictUpdate_eq_self d d hnd (dict_self_get d hnd)

theorem dictSet_idem (d : PyDict) (k : String) (v : PyVal)
    (hnd : (d.map Prod.fst).Nodup) :
    dictSet (dictSet d k v) k v = dictSet d k v :=
  dictSet_eq_of_get _ k v (dictSet_keys_nodup d k v hnd) (dictGet_dictSet_self d k v)

theorem pairEqb_iff (a b x y : Nat) :
    pairEqb a b x y = true ↔ (a = x ∧ b = y) ∨ (a = y ∧ b = x) := by
  simp [pairEqb, Bool.or_eq_true, Bool.and_eq_true, beq_iff_eq]

theorem pairEqb_self (a b : Nat) : pairEqb a b a b = true := by
  simp [pairEqb_iff]

theorem pairEqb_comm (a b x y : Nat) : pairEqb a b x y = pairEqb x y a b := by
  rw [Bool.eq_iff_iff, pairEqb_iff, pairEqb_iff]
  constructor
  · rintro (⟨h1, h2⟩ | ⟨h1, h2⟩)
    · exact Or.inl ⟨h1.symm, h2.symm⟩
    · exact Or.inr ⟨h2.symm, h1.symm⟩
  · rintro (⟨h1, h2⟩ | ⟨h1, h2⟩)
    · exact Or.inl ⟨h1.symm, h2.symm⟩
    · exact Or.inr ⟨h2.symm, h1.symm⟩

theorem pairEqb_trans (p q x y a b : Nat) (h1 : pairEqb p q x y = true)
    (h2 : pairEqb x y a b = true) : pairEqb p q a b = true := by
  rw [pairEqb_iff] at h1 h2 ⊢
  rcases h1 with ⟨e1, e2⟩ | ⟨e1, e2⟩ <;> rcases h2 with ⟨f1, f2⟩ | ⟨f1, f2⟩ <;>
    subst e1 <;> subst e2 <;> simp [f1, f2]

theorem filterMap_congr_fn {α β : Type} (l : List α) (f f' : α → Option β)
    (h : ∀ x ∈ l, f x = f' x) : l.filterMap f = l.filterMap f' := by
  induction l with
  | nil => rfl
  | cons x rest ih =>
    rw [List.filterMap_cons, List.filterMap_cons,
      h x (List.mem_cons_self x rest),
      ih (fun y hy => h y (List.mem_cons_of_mem x hy))]

theorem filterMap_nil_iff {α β : Type} (l : List α) (f : α → Option β) :
    l.filterMap f = [] ↔ ∀ x ∈ l, f x = none := by
  induction l with
  | nil => simp
  | cons x rest ih =>
    rw [List.filterMap_cons]
    cases hf : f x with
    | none => simp [hf, ih]
    | some b =>
      constructor
      · intro h; exact absurd h (List.cons_ne_nil _ _)
      · intro h
        have hx := h x (List.mem_cons_self x rest)
        rw [hf] at hx; cases hx

theorem edgesBetween_congr (g : MGraph) (u v a b : Nat)
    (h : pairEqb u v a b = true) : edgesBetween g u v = edgesBetween g a b := by
  unfold edgesBetween
  apply filterMap_congr_fn
  intro e _
  have hcond : pairEqb e.u e.v u v = pairEqb e.u e.v a b := by
    rw [Bool.eq_iff_iff]
    constructor
    · intro hh; exact pairEqb_trans e.u e.v u v a b hh h
    · intro hh
      exact pairEqb_trans e.u e.v a b u v hh (by rw [pairEqb_comm]; exact h)
  rw [hcond]

theorem mem_edgesBetween (g : MGraph) (a b : Nat) (k : Nat) (d : PyDict) :
    (k, d) ∈ edgesBetween g a b ↔
      ∃ e ∈ g.edges, pairEqb e.u e.v a b = true ∧ e.key = k ∧ e.data = d := by
  unfold edgesBetween
  rw [List.mem_filterMap]
  constructor
  · rintro ⟨e, he, hfe⟩
    by_cases hpe : pairEqb e.u e.v a b = true
    · rw [if_pos hpe] at hfe
      injection hfe with hfe
      exact ⟨e, he, hpe, congrArg Prod.fst hfe, congrArg Prod.snd hfe⟩
    · rw [if_neg hpe] at hfe; cases hfe
  · rintro ⟨e, he, hpe, hk, hd⟩
    exact ⟨e, he, by rw [if_pos hpe, hk, hd]⟩

theorem edgesBetween_ne_nil (g : MGraph) (a b : Nat) :
    edgesBetween g a b ≠ [] ↔ ∃ e ∈ g.edges, pairEqb e.u e.v a b = true := by
  unfold edgesBetween
  rw [Ne, filterMap_nil_iff]
  constructor
  · intro h
    by_contra hn
    push_neg at hn
    apply h
    intro e he
    rw [if_neg (by simpa using hn e he)]
  · rintro ⟨e, he, hpe⟩ hall
    have hh := hall e he
    rw [if_pos hpe] at hh
    cases hh

theorem endpoints_of_edges (g : MGraph) (wk : String) (hwf : WF g wk) (a b : Nat)
    (hab : edgesBetween g a b ≠ []) :
    hasNode g a = true ∧ hasNode g b = true ∧ a ≠ b := by
  rcases (edgesBetween_ne_nil g a b).mp hab with ⟨e, he, hpe⟩
  obtain ⟨-, -, hedge, -⟩ := hwf
  obtain ⟨hne, hu, hv, -, -⟩ := hedge e he
  rcases (pairEqb_iff _ _ _ _).mp hpe with ⟨h1, h2⟩ | ⟨h1, h2⟩
  · subst h1; subst h2; exact ⟨hu, hv, hne⟩
  · subst h1; subst h2; exact ⟨hv, hu, fun hh => hne hh.symm⟩

theorem keyLookup_markMap (kd : List (Nat × PyDict)) (bk : Nat)
    (f : Nat → PyDict → PyDict) (k : Nat) :
    keyLookup k (kd.map (fun p => if p.1 == bk then (p.1, f p.1 p.2) else p)) =
      (keyLookup k kd).map (fun d => if k = bk then f k d else d) := by
  induction kd with
  | nil => rfl
  | cons p rest ih =>
    have hfst : ((if (p.1 == bk) = true then (p.1, f p.1 p.2) else p).1) = p.1 := by
      split <;> rfl
    have hsnd : ((if (p.1 == bk) = true then (p.1, f p.1 p.2) else p).2) =
        if (p.1 == bk) = true then f p.1 p.2 else p.2 := by
      split <;> rfl
    simp only [List.map_cons]
    rw [keyLookup_cons, keyLookup_cons, hfst, hsnd]
    by_cases hpk : p.1 = k
    · subst hpk
      rw [if_pos rfl, if_pos rfl]
      simp [beq_iff_eq]
    · rw [if_neg hpk, if_neg hpk]
      exact ih

theorem keys_markMap (kd : List (Nat × PyDict)) (bk : Nat)
    (f : Nat → PyDict → PyDict) :
    (kd.map (fun p => if p.1 == bk then (p.1, f p.1 p.2) else p)).map Prod.fst =
      kd.map Prod.fst := by
  induction kd with
  | nil => rfl
  | cons p rest ih =>
    have hfst : ((if (p.1 == bk) = true then (p.1, f p.1 p.2) else p).1) = p.1 := by
      split <;> rfl
    simp only [List.map_cons, hfst, ih]

theorem pyMinByGo_eq (f : Nat → Except PyErr Int) (w : Nat → Int) (ks : List Nat)
    (h : ∀ k ∈ ks, f k = Except.ok (w k)) (bk : Nat) (bw : Int) :
    pyMinByGo f ks bk bw = Except.ok (firstMinGo w ks bk bw) := by
  induction ks generalizing bk bw with
  | nil => rfl
  | cons k rest ih =>
    have hk := h k (List.mem_cons_self k rest)
    simp only [pyMinByGo, firstMinGo, hk]
    have hrest : ∀ k' ∈ rest, f k' = Except.ok (w k') :=
      fun k' hk' => h k' (List.mem_cons_of_mem k hk')
    by_cases hlt : w k < bw
    · rw [if_pos hlt, if_pos hlt]; exact ih hrest k (w k)
    · rw [if_neg hlt, if_neg hlt]; exact ih hrest bk bw

theorem pyMinBy_eq (f : Nat → Except PyErr Int) (w : Nat → Int) (ks : List Nat)
    (hne : ks ≠ []) (h : ∀ k ∈ ks, f k = Except.ok (w k)) :
    pyMinBy f ks = Except.ok (firstMinKey w ks) := by
  cases ks with
  | nil => cases hne rfl
  | cons k rest =>
    simp only [pyMinBy, firstMinKey, h k (List.mem_cons_self k rest)]
    exact pyMinByGo_eq f w rest (fun k' hk' => h k' (List.mem_cons_of_mem k hk')) k (w k)

theorem firstMinGo_spec (w : Nat → Int) (ks : List Nat) (bk : Nat) :
    (firstMinGo w ks bk (w bk) = bk ∧ ∀ k ∈ ks, w bk ≤ w k) ∨
    (∃ i k', ks.get? i = some k' ∧ firstMinGo w ks bk (w bk) = k' ∧ w k' < w bk ∧
      (∀ k ∈ ks, w k' ≤ w k) ∧
      (∀ j k'', j < i → ks.get? j = some k'' → w k' < w k'')) := by
  induction ks generalizing bk with
  | nil =>
    left
    exact ⟨rfl, by intro k hk; cases hk⟩
  | cons k rest ih =>
    simp only [firstMinGo]
    by_cases hlt : w k < w bk
    · rw [if_pos hlt]
      rcases ih k with ⟨heq, hmin⟩ | ⟨i, k', hget, heq, hlt', hmin, hfirst⟩
      · right
        refine ⟨0, k, rfl, heq, hlt, ?_, ?_⟩
        · intro k'' hk''
          rcases List.mem_cons.mp hk'' with h | h
          · subst h; exact le_refl _
          · exact hmin k'' h
        · intro j k'' hj _
          exact absurd hj (Nat.not_lt_zero j)
      · right
        refine ⟨i + 1, k', by simpa using hget, heq, lt_trans hlt' hlt, ?_, ?_⟩
        · intro k'' hk''
          rcases List.mem_cons.mp hk'' with h | h
          · subst h; exact le_of_lt hlt'
          · exact hmin k'' h
        · intro j k'' hj hget'
          cases j with
          | zero =>
            rw [List.get?_cons_zero] at hget'
            injection hget' with hh
            subst hh
            exact hlt'
          | succ j' =>
            rw [List.get?_cons_succ] at hget'
            exact hfirst j' k'' (Nat.lt_of_succ_lt_succ hj) hget'
    · rw [if_neg hlt]
      push_neg at hlt
      rcases ih bk with ⟨heq, hmin⟩ | ⟨i, k', hget, heq, hlt', hmin, hfirst⟩
      · left
        refine ⟨heq, ?_⟩
        intro k'' hk''
        rcases List.mem_cons.mp hk'' with h | h
        · subst h; exact hlt
        · exact hmin k'' h
      · right
        refine ⟨i + 1, k', by simpa using hget, heq, hlt', ?_, ?_⟩
        · intro k'' hk''
          rcases List.mem_cons.mp hk'' with h | h
          · subst h; exact le_trans (le_of_lt hlt') hlt
          · exact hmin k'' h
        · intro j k'' hj hget'
          cases j with
          | zero =>
            rw [List.get?_cons_zero] at hget'
            injection hget' with hh
            subst hh
            exact lt_of_lt_of_le hlt' hlt
          | succ j' =>
            rw [List.get?_cons_succ] at hget'
            exact hfirst j' k'' (Nat.lt_of_succ_lt_succ hj) hget'

theorem firstMinKey_spec (w : Nat → Int) (ks : List Nat) (hne : ks ≠ []) :
    IsFirstMin w ks (firstMinKey w ks) := by
  cases ks with
  | nil => cases hne rfl
  | cons k rest =>
    simp only [firstMinKey]
    rcases firstMinGo_spec w rest k with ⟨heq, hmin⟩ | ⟨i, k', hget, heq, hlt, hmin, hfirst⟩
    · refine ⟨0, ?_, ?_, ?_⟩
      · rw [heq]; exact List.get?_cons_zero
      · intro k'' hk''
        rw [heq]
        rcases List.mem_cons.mp hk'' with h | h
        · subst h; exact le_refl _
        · exact hmin k'' h
      · intro j k'' hj _
        exact absurd hj (Nat.not_lt_zero j)
    · refine ⟨i + 1, ?_, ?_, ?_⟩
      · rw [heq]; simpa using hget
      · intro k'' hk''
        rw [heq]
        rcases List.mem_cons.mp hk'' with h | h
        · subst h; exact le_of_lt hlt
        · exact hmin k'' h
      · intro j k'' hj hget'
        rw [heq]
        cases j with
        | zero =>
          rw [List.get?_cons_zero] at hget'
          injection hget' with hh
          subst hh
          exact hlt
        | succ j' =>
          rw [List.get?_cons_succ] at hget'
          exact hfirst j' k'' (Nat.lt_of_succ_lt_succ hj) hget'

theorem firstMinKey_mem (w : Nat → Int) (ks : List Nat) (hne : ks ≠ []) :
    firstMinKey w ks ∈ ks := by
  rcases firstMinKey_spec w ks hne with ⟨i, hget, -, -⟩
  exact List.get?_mem hget

theorem pairwise_filterMap_of {α β : Type} (R : α → α → Prop) (T : β → β → Prop)
    (f : α → Option β) (l : List α)
    (h : ∀ a a', R a a' → ∀ b, f a = some b → ∀ b', f a' = some b' → T b b')
    (hp : List.Pairwise R l) : List.Pairwise T (l.filterMap f) := by
  induction hp with
  | nil => exact List.Pairwise.nil
  | @cons a rest hr _hpw ih =>
    rw [List.filterMap_cons]
    cases hf : f a with
    | none => exact ih
    | some b =>
      refine List.Pairwise.cons ?_ ih
      intro b' hb'
      rcases List.mem_filterMap.mp hb' with ⟨a', ha', hfa'⟩
      exact h a a' (hr a' ha') b hf b' hfa'

theorem pairEqb_congr (u v a b : Nat) (h : pairEqb u v a b = true) (x y : Nat) :
    pairEqb x y u v = pairEqb x y a b := by
  rw [Bool.eq_iff_iff]
  constructor
  · intro hh; exact pairEqb_trans x y u v a b hh h
  · intro hh
    exact pairEqb_trans x y a b u v hh (by rw [pairEqb_comm]; exact h)

theorem pairMem_congr (u v a b : Nat) (h : pairEqb u v a b = true)
    (S : List (Nat × Nat)) : pairMem u v S = pairMem a b S := by
  unfold pairMem
  rw [Bool.eq_iff_iff, List.any_eq_true, List.any_eq_true]
  constructor
  · rintro ⟨p, hp, hpe⟩
    exact ⟨p, hp, by rw [← pairEqb_congr u v a b h]; exact hpe⟩
  · rintro ⟨p, hp, hpe⟩
    exact ⟨p, hp, by rw [pairEqb_congr u v a b h]; exact hpe⟩

theorem bestKeyOf_congr (wk : String) (g : MGraph) (u v a b : Nat)
    (h : pairEqb u v a b = true) : bestKeyOf wk g u v = bestKeyOf wk g a b := by
  unfold bestKeyOf
  rw [edgesBetween_congr g u v a b h]

theorem finalData_congr (wk : String) (g : MGraph) (u v a b : Nat)
    (h : pairEqb u v a b = true) : finalData wk g u v = finalData wk g a b := by
  unfold finalData
  rw [edgesBetween_congr g u v a b h, bestKeyOf_congr wk g u v a b h]

theorem wf_pair_keys (g : MGraph) (wk : String) (hwf : WF g wk) (a b : Nat) :
    List.Pairwise (fun p q : Nat × PyDict => p.1 ≠ q.1) (edgesBetween g a b) := by
  obtain ⟨-, -, -, hpw⟩ := hwf
  unfold edgesBetween
  refine pairwise_filterMap_of _ _ _ _ ?_ hpw
  intro e e' hr p hp q hq
  by_cases h1 : pairEqb e.u e.v a b = true
  · by_cases h2 : pairEqb e'.u e'.v a b = true
    · rw [if_pos h1] at hp
      rw [if_pos h2] at hq
      injection hp with hp
      injection hq with hq
      subst hp; subst hq
      intro hkey
      have hpe : pairEqb e.u e.v e'.u e'.v = true :=
        pairEqb_trans _ _ _ _ _ _ h1 (by rw [pairEqb_comm]; exact h2)
      simp only at hkey
      simp [hpe, hkey] at hr
    · rw [if_neg h2] at hq; cases hq
  · rw [if_neg h1] at hp; cases hp

theorem wf_entry_int (g : MGraph) (wk : String) (hwf : WF g wk) (a b k : Nat)
    (d : PyDict) (hmem : (k, d) ∈ edgesBetween g a b) :
    hasIntAt d wk = true ∧ (d.map Prod.fst).Nodup := by
  rcases (mem_edgesBetween g a b k d).mp hmem with ⟨e, he, _hpe, _hk, hd⟩
  obtain ⟨-, -, hedge, -⟩ := hwf
  obtain ⟨-, -, -, hnd, hint⟩ := hedge e he
  subst hd
  exact ⟨hint, hnd⟩

theorem keyLookup_of_mem_nodup {β : Type} (kd : List (Nat × β))
    (hnd : List.Pairwise (fun p q : Nat × β => p.1 ≠ q.1) kd)
    (p : Nat × β) (hp : p ∈ kd) : keyLookup p.1 kd = some p.2 := by
  induction kd with
  | nil => cases hp
  | cons q rest ih =>
    rcases List.pairwise_cons.mp hnd with ⟨hq, hrest⟩
    rcases List.mem_cons.mp hp with hp | hp
    · subst hp
      rw [keyLookup_cons, if_pos rfl]
    · rw [keyLookup_cons, if_neg (hq p hp)]
      exact ih hrest hp

theorem keyLookup_get?_nodup {β : Type} (kd : List (Nat × β))
    (hnd : List.Pairwise (fun p q : Nat × β => p.1 ≠ q.1) kd) (i : Nat) (k : Nat)
    (hget : (kd.map Prod.fst).get? i = some k) :
    ∃ d, kd.get? i = some (k, d) ∧ keyLookup k kd = some d := by
  rw [List.get?_map] at hget
  cases hp : kd.get? i with
  | none => rw [hp] at hget; cases hget
  | some p =>
    rw [hp] at hget
    injection hget with hget
    have hmem : p ∈ kd := List.get?_mem hp
    refine ⟨p.2, ?_, ?_⟩
    · rw [← hget]
    · rw [← hget]
      exact keyLookup_of_mem_nodup kd hnd p hmem

theorem markEdge_u (wk : String) (g : MGraph) (e : MEdge) :
    (markEdge wk g e).u = e.u := by
  unfold markEdge; split <;> rfl

theorem markEdge_v (wk : String) (g : MGraph) (e : MEdge) :
    (markEdge wk g e).v = e.v := by
  unfold markEdge; split <;> rfl

theorem markEdge_key (wk : String) (g : MGraph) (e : MEdge) :
    (markEdge wk g e).key = e.key := by
  unfold markEdge; split <;> rfl

theorem markEdge_data (wk : String) (g : MGraph) (e : MEdge) :
    (markEdge wk g e).data =
      if e.key == bestKeyOf wk g e.u e.v then
        dictSet e.data "cycle_idx" (PyVal.int (e.key : Int))
      else e.data := by
  unfold markEdge
  split <;> rfl

theorem edgesBetween_markGraph (g0 : MGraph) (wk : String) (S : List (Nat × Nat))
    (a b : Nat) :
    edgesBetween (markGraph wk g0 S) a b =
      if pairMem a b S then
        (edgesBetween g0 a b).map (fun p =>
          if p.1 == bestKeyOf wk g0 a b then
            (p.1, dictSet p.2 "cycle_idx" (PyVal.int (p.1 : Int)))
          else p)
      else edgesBetween g0 a b := by
  have key : ∀ es : List MEdge,
      (es.map (fun e => if pairMem e.u e.v S then markEdge wk g0 e else e)).filterMap
          (fun e => if pairEqb e.u e.v a b then some (e.key, e.data) else none) =
        if pairMem a b S then
          (es.filterMap
              (fun e => if pairEqb e.u e.v a b then some (e.key, e.data) else none)).map
            (fun p => if p.1 == bestKeyOf wk g0 a b then
              (p.1, dictSet p.2 "cycle_idx" (PyVal.int (p.1 : Int))) else p)
        else es.filterMap
          (fun e => if pairEqb e.u e.v a b then some (e.key, e.data) else none) := by
    intro es
    by_cases hS : pairMem a b S = true
    · rw [if_pos hS]
      induction es with
      | nil => rfl
      | cons e rest ih =>
        simp only [List.map_cons, List.filterMap_cons]
        by_cases hpe : pairEqb e.u e.v a b = true
        · have hmm : pairMem e.u e.v S = true := by
            rw [pairMem_congr e.u e.v a b hpe]; exact hS
          simp only [hmm, if_true, markEdge_u, markEdge_v, hpe, ih,
            List.map_cons, markEdge_key, markEdge_data]
          rw [bestKeyOf_congr wk g0 e.u e.v a b hpe]
          by_cases hbk : e.key = bestKeyOf wk g0 a b
          · simp only [hbk, beq_self_eq_true, if_true]
          · simp only [if_neg (by simp [hbk] :
              ¬((e.key == bestKeyOf wk g0 a b) = true))]
        · by_cases hmm : pairMem e.u e.v S = true
          · simp only [hmm, if_true, markEdge_u, markEdge_v, hpe,
              Bool.false_eq_true, if_false, ih]
          · simp only [hmm, Bool.false_eq_true, if_false, hpe, ih]
    · rw [if_neg hS]
      induction es with
      | nil => rfl
      | cons e rest ih =>
        simp only [List.map_cons, List.filterMap_cons]
        by_cases hpe : pairEqb e.u e.v a b = true
        · have hmm : pairMem e.u e.v S = false := by
            rw [pairMem_congr e.u e.v a b hpe]
            cases hval : pairMem a b S
            · rfl
            · exact absurd hval hS
          simp only [hmm, Bool.false_eq_true, if_false, hpe, if_true, ih]
        · by_cases hmm : pairMem e.u e.v S = true
          · simp only [hmm, if_true, markEdge_u, markEdge_v, hpe,
              Bool.false_eq_true, if_false, ih]
          · simp only [hmm, Bool.false_eq_true, if_false, hpe, ih]
  have hL : edgesBetween (markGraph wk g0 S) a b =
      (g0.edges.map (fun e => if pairMem e.u e.v S then markEdge wk g0 e else e)).filterMap
        (fun e => if pairEqb e.u e.v a b then some (e.key, e.data) else none) := rfl
  rw [hL, key g0.edges]
  rfl

theorem mem_dedupAux (l : List Nat) (seen : List Nat) (x : Nat) :
    x ∈ dedupAux l seen ↔ x ∈ l ∧ x ∉ seen := by
  induction l generalizing seen with
  | nil => simp [dedupAux]
  | cons y rest ih =>
    simp only [dedupAux]
    by_cases hy : y ∈ seen
    · rw [if_pos hy, ih]
      simp only [List.mem_cons]
      constructor
      · rintro ⟨h1, h2⟩; exact ⟨Or.inr h1, h2⟩
      · rintro ⟨h1 | h1, h2⟩
        · subst h1; exact absurd hy h2
        · exact ⟨h1, h2⟩
    · rw [if_neg hy]
      simp only [List.mem_cons, ih, List.mem_cons]
      constructor
      · rintro (h | ⟨h1, h2⟩)
        · subst h; exact ⟨Or.inl rfl, hy⟩
        · exact ⟨Or.inr h1, fun hh => h2 (Or.inr hh)⟩
      · rintro ⟨h1 | h1, h2⟩
        · exact Or.inl h1
        · by_cases hxy : x = y
          · exact Or.inl hxy
          · exact Or.inr ⟨h1, fun hh => hh.elim hxy h2⟩

theorem mem_neighbors (g : MGraph) (wk : String) (hwf : WF g wk) (a m : Nat) :
    m ∈ neighbors g a ↔ edgesBetween g a m ≠ [] := by
  unfold neighbors
  rw [mem_dedupAux]
  simp only [List.mem_filterMap, List.not_mem_nil, not_false_iff, and_true]
  rw [edgesBetween_ne_nil]
  constructor
  · rintro ⟨e, he, hfe⟩
    refine ⟨e, he, ?_⟩
    by_cases h1 : e.u = a
    · rw [if_pos (by simp [h1])] at hfe
      injection hfe with hfe
      rw [pairEqb_iff]; exact Or.inl ⟨h1, hfe⟩
    · rw [if_neg (by simp [h1])] at hfe
      by_cases h2 : e.v = a
      · rw [if_pos (by simp [h2])] at hfe
        injection hfe with hfe
        rw [pairEqb_iff]; exact Or.inr ⟨hfe, h2⟩
      · rw [if_neg (by simp [h2])] at hfe; cases hfe
  · rintro ⟨e, he, hpe⟩
    refine ⟨e, he, ?_⟩
    obtain ⟨-, -, hedge, -⟩ := hwf
    obtain ⟨hne, -, -, -, -⟩ := hedge e he
    rcases (pairEqb_iff _ _ _ _).mp hpe with ⟨h1, h2⟩ | ⟨h1, h2⟩
    · rw [if_pos (by simp [h1]), h2]
    · rw [if_neg (by simp only [beq_iff_eq]; intro hh; exact hne (hh.trans h2.symm)),
        if_pos (by simp [h2]), h1]

theorem neighbors_markGraph (wk : String) (g0 : MGraph) (S : List (Nat × Nat))
    (a : Nat) : neighbors (markGraph wk g0 S) a = neighbors g0 a := by
  unfold neighbors markGraph
  simp only
  rw [List.filterMap_map]
  refine congrArg (fun l => dedupAux l []) ?_
  apply filterMap_congr_fn
  intro e _
  simp only [Function.comp]
  by_cases hm : pairMem e.u e.v S = true
  · rw [if_pos hm]
    simp only [markEdge_u, markEdge_v]
  · rw [if_neg hm]

theorem map_congr_fn {α β : Type} (l : List α) (f f' : α → β)
    (h : ∀ x ∈ l, f x = f' x) : l.map f = l.map f' := by
  induction l with
  | nil => rfl
  | cons x rest ih =>
    simp only [List.map_cons]
    rw [h x (List.mem_cons_self x rest), ih (fun y hy => h y (List.mem_cons_of_mem x hy))]

theorem keyLookup_mem {β : Type} (kd : List (Nat × β)) (k : Nat) (d : β)
    (h : keyLookup k kd = some d) : (k, d) ∈ kd := by
  induction kd with
  | nil => cases h
  | cons p rest ih =>
    rw [keyLookup_cons] at h
    by_cases hp : p.1 = k
    · rw [if_pos hp] at h
      injection h with h
      subst h
      rw [← hp]
      exact List.mem_cons_self p rest
    · rw [if_neg hp] at h
      exact List.mem_cons_of_mem p (ih h)

theorem keyLookup_some_of_mem_keys {β : Type} (kd : List (Nat × β))
    (hnd : List.Pairwise (fun p q : Nat × β => p.1 ≠ q.1) kd) (k : Nat)
    (hmem : k ∈ kd.map Prod.fst) : ∃ d, keyLookup k kd = some d := by
  rcases List.mem_map.mp hmem with ⟨p, hp, hpk⟩
  exact ⟨p.2, by rw [← hpk]; exact keyLookup_of_mem_nodup kd hnd p hp⟩

theorem lookupKeyD_eq (kd : List (Nat × PyDict)) (k : Nat) (d : PyDict)
    (h : keyLookup k kd = some d) : lookupKeyD kd k = d := by
  unfold lookupKeyD
  rw [h]
  rfl

theorem pairMem_append (a b : Nat) (S : List (Nat × Nat)) (p : Nat × Nat) :
    pairMem a b (S ++ [p]) = (pairMem a b S || pairEqb p.1 p.2 a b) := by
  unfold pairMem
  rw [List.any_append]
  simp

theorem pairMem_addPair_mono (x y a b : Nat) (S : List (Nat × Nat))
    (h : pairMem x y S = true) : pairMem x y (addPair S a b) = true := by
  unfold addPair
  split
  · exact h
  · rw [pairMem_append]; simp [h]

theorem pairMem_addPair_self (a b : Nat) (S : List (Nat × Nat)) :
    pairMem a b (addPair S a b) = true := by
  unfold addPair
  split
  · rename_i h; exact h
  · rw [pairMem_append]; simp [pairEqb_self]

theorem SOK_addPair (g : MGraph) (S : List (Nat × Nat)) (hS : SOK g S)
    (a b : Nat) (hab : edgesBetween g a b ≠ []) : SOK g (addPair S a b) := by
  unfold addPair
  by_cases hm : pairMem a b S = true
  · rw [if_pos hm]; exact hS
  · rw [if_neg hm]
    obtain ⟨hedges, hpw⟩ := hS
    constructor
    · intro p hp
      rcases List.mem_append.mp hp with hp | hp
      · exact hedges p hp
      · simp only [List.mem_singleton] at hp
        subst hp
        exact hab
    · rw [List.pairwise_append]
      refine ⟨hpw, List.pairwise_singleton _ _, ?_⟩
      intro p hp q hq
      simp only [List.mem_singleton] at hq
      subst hq
      cases hval : pairEqb p.1 p.2 a b
      · rfl
      · exfalso
        apply hm
        unfold pairMem
        rw [List.any_eq_true]
        exact ⟨p, hp, hval⟩

theorem pairMem_addNbrs_mono (a : Nat) (ms : List Nat) (S : List (Nat × Nat))
    (x y : Nat) (h : pairMem x y S = true) :
    pairMem x y (addNbrs a ms S) = true := by
  induction ms generalizing S with
  | nil => exact h
  | cons m rest ih => exact ih _ (pairMem_addPair_mono x y a m S h)

theorem pairMem_addNbrs_covers (a : Nat) (ms : List Nat) (S : List (Nat × Nat)) :
    ∀ m ∈ ms, pairMem a m (addNbrs a ms S) = true := by
  induction ms generalizing S with
  | nil => intro m hm; cases hm
  | cons m0 rest ih =>
    intro m hm
    rcases List.mem_cons.mp hm with hm | hm
    · subst hm
      exact pairMem_addNbrs_mono a rest _ a m (pairMem_addPair_self a m S)
    · exact ih _ m hm

theorem SOK_addNbrs (g : MGraph) (a : Nat) (ms : List Nat)
    (S : List (Nat × Nat)) (hS : SOK g S)
    (hms : ∀ m ∈ ms, edgesBetween g a m ≠ []) : SOK g (addNbrs a ms S) := by
  induction ms generalizing S with
  | nil => exact hS
  | cons m rest ih =>
    exact ih _ (SOK_addPair g S hS a m (hms m (List.mem_cons_self m rest)))
      (fun m' hm' => hms m' (List.mem_cons_of_mem m hm'))

theorem any_map_fn {α β : Type} (l : List α) (f : α → β) (p : β → Bool) :
    (l.map f).any p = l.any (fun x => p (f x)) := by
  induction l with
  | nil => rfl
  | cons x rest ih => simp [List.any_cons, ih]

theorem sEdges_any (wk : String) (g0 : MGraph) (S : List (Nat × Nat)) (a b : Nat) :
    (simpleState wk g0 S).edges.any (fun e => pairEqb e.u e.v a b) = pairMem a b S := by
  unfold simpleState pairMem
  dsimp only
  rw [any_map_fn]

theorem sAddEdge_append (s : SGraph) (m1 m2 : Nat) (d : PyDict)
    (h1 : keyMem m1 s.nodes = true) (h2 : keyMem m2 s.nodes = true)
    (h3 : s.edges.any (fun e => pairEqb e.u e.v m1 m2) = false) :
    sAddEdge s m1 m2 d = ⟨s.nodes, s.edges ++ [⟨m1, m2, d⟩]⟩ := by
  unfold sAddEdge hasNodeS
  simp [h1, h2, h3]

theorem sAddEdge_update (s : SGraph) (m1 m2 : Nat) (d : PyDict)
    (h1 : keyMem m1 s.nodes = true) (h2 : keyMem m2 s.nodes = true)
    (h3 : s.edges.any (fun e => pairEqb e.u e.v m1 m2) = true) :
    sAddEdge s m1 m2 d = ⟨s.nodes, s.edges.map (fun e =>
      if pairEqb e.u e.v m1 m2 then { e with data := dictUpdate e.data d }
      else e)⟩ := by
  unfold sAddEdge hasNodeS
  simp [h1, h2, h3]

theorem reducePair_step (g0 : MGraph) (wk : String) (hwf : WF g0 wk)
    (S : List (Nat × Nat)) (hS : SOK g0 S) (a b : Nat)
    (hab : edgesBetween g0 a b ≠ []) :
    reducePair wk a b (simpleState wk g0 S, markGraph wk g0 S) =
      Except.ok (simpleState wk g0 (addPair S a b),
        markGraph wk g0 (addPair S a b)) := by
  have hwk : wk ≠ "cycle_idx" := hwf.1
  have hkeys0 : List.Pairwise (fun p q : Nat × PyDict => p.1 ≠ q.1)
      (edgesBetween g0 a b) := wf_pair_keys g0 wk hwf a b
  have hksne : (edgesBetween g0 a b).map Prod.fst ≠ [] := by
    intro h
    exact hab (List.map_eq_nil.mp h)
  have hBmem : bestKeyOf wk g0 a b ∈ (edgesBetween g0 a b).map Prod.fst :=
    firstMinKey_mem _ _ hksne
  obtain ⟨dstar, hdstar⟩ := keyLookup_some_of_mem_keys _ hkeys0 _ hBmem
  have hdstar_mem : (bestKeyOf wk g0 a b, dstar) ∈ edgesBetween g0 a b :=
    keyLookup_mem _ _ _ hdstar
  obtain ⟨hdint, hdnd⟩ := wf_entry_int g0 wk hwf a b _ dstar hdstar_mem
  have hfinal : finalData wk g0 a b =
      dictSet dstar "cycle_idx" (PyVal.int (bestKeyOf wk g0 a b : Int)) := by
    unfold finalData
    rw [lookupKeyD_eq _ _ _ hdstar]
  obtain ⟨hna, hnb, _hne⟩ := endpoints_of_edges g0 wk hwf a b hab
  have hna' : keyMem a (simpleState wk g0 S).nodes = true := hna
  have hnb' : keyMem b (simpleState wk g0 S).nodes = true := hnb
  have hdata_eq : ∀ e ∈ g0.edges, pairEqb e.u e.v a b = true →
      e.key = bestKeyOf wk g0 a b → e.data = dstar := by
    intro e he hpe hbk
    have hmem : (bestKeyOf wk g0 a b, e.data) ∈ edgesBetween g0 a b :=
      (mem_edgesBetween g0 a b _ _).mpr ⟨e, he, hpe, hbk, rfl⟩
    have hlk : keyLookup (bestKeyOf wk g0 a b) (edgesBetween g0 a b) =
        some e.data := keyLookup_of_mem_nodup _ hkeys0 _ hmem
    rw [hdstar] at hlk
    injection hlk with hlk
    exact hlk.symm
  have hwOf0 : ∀ k ∈ (edgesBetween g0 a b).map Prod.fst,
      weightOf (edgesBetween g0 a b) wk k =
        Except.ok (keyWeightD wk (edgesBetween g0 a b) k) := by
    intro k hk
    obtain ⟨d, hd⟩ := keyLookup_some_of_mem_keys _ hkeys0 k hk
    obtain ⟨hint, -⟩ := wf_entry_int g0 wk hwf a b k d (keyLookup_mem _ _ _ hd)
    unfold hasIntAt at hint
    cases hdw : dictGet d wk with
    | none => rw [hdw] at hint; cases hint
    | some v =>
      cases v with
      | int w =>
        simp only [weightOf, multiViewGet, hd, keyWeightD, weightD, lookupKeyD,
          hdw, Option.getD_some, Option.map_some]
      | t1 c => rw [hdw] at hint; cases hint
      | t2 c => rw [hdw] at hint; cases hint
  have hrp : reducePair wk a b (simpleState wk g0 S, markGraph wk g0 S) =
      match pyMinBy (weightOf (edgesBetween (markGraph wk g0 S) a b) wk)
          ((edgesBetween (markGraph wk g0 S) a b).map Prod.fst) with
      | Except.error e => Except.error e
      | Except.ok best_edge_key =>
        match multiViewGet (edgesBetween (markGraph wk g0 S) a b) best_edge_key with
        | Except.error e => Except.error e
        | Except.ok best_edge_data =>
          Except.ok
            (sAddEdge (simpleState wk g0 S) a b
              (dictSet best_edge_data "cycle_idx" (PyVal.int (best_edge_key : Int))),
             mgSetEdgeData (markGraph wk g0 S) a b best_edge_key
              (dictSet best_edge_data "cycle_idx" (PyVal.int (best_edge_key : Int)))) := rfl
  cases hSm : pairMem a b S with
  | false =>
    have hkdm : edgesBetween (markGraph wk g0 S) a b = edgesBetween g0 a b := by
      rw [edgesBetween_markGraph, if_neg (by simp [hSm])]
    have hmin : pyMinBy (weightOf (edgesBetween (markGraph wk g0 S) a b) wk)
        ((edgesBetween (markGraph wk g0 S) a b).map Prod.fst) =
          Except.ok (bestKeyOf wk g0 a b) := by
      rw [hkdm]
      exact pyMinBy_eq _ (keyWeightD wk (edgesBetween g0 a b)) _ hksne hwOf0
    have hview : multiViewGet (edgesBetween (markGraph wk g0 S) a b)
        (bestKeyOf wk g0 a b) = Except.ok dstar := by
      rw [hkdm]
      unfold multiViewGet
      rw [hdstar]
    have hsimple : sAddEdge (simpleState wk g0 S) a b
        (dictSet dstar "cycle_idx" (PyVal.int (bestKeyOf wk g0 a b : Int))) =
          simpleState wk g0 (addPair S a b) := by
      rw [sAddEdge_append _ a b _ hna' hnb' (by rw [sEdges_any]; exact hSm)]
      unfold simpleState addPair
      rw [if_neg (by simp [hSm])]
      dsimp only
      rw [List.map_append]
      simp only [List.map_cons, List.map_nil]
      rw [hfinal]
    have hmark : mgSetEdgeData (markGraph wk g0 S) a b (bestKeyOf wk g0 a b)
        (dictSet dstar "cycle_idx" (PyVal.int (bestKeyOf wk g0 a b : Int))) =
          markGraph wk g0 (addPair S a b) := by
      unfold mgSetEdgeData markGraph addPair
      rw [if_neg (by simp [hSm])]
      dsimp only
      rw [List.map_map]
      refine congrArg (MGraph.mk g0.nodes) ?_
      apply map_congr_fn
      intro e he
      simp only [Function.comp]
      cases hpe : pairEqb e.u e.v a b with
      | true =>
        have hmm : pairMem e.u e.v S = false := by
          rw [pairMem_congr e.u e.v a b hpe, hSm]
        have hmm2 : pairMem e.u e.v (S ++ [(a, b)]) = true := by
          rw [pairMem_append, hmm]
          simp only [Bool.false_or]
          rw [pairEqb_comm]
          exact hpe
        have hBe : bestKeyOf wk g0 e.u e.v = bestKeyOf wk g0 a b :=
          bestKeyOf_congr wk g0 e.u e.v a b hpe
        simp only [hmm, hmm2, Bool.false_eq_true, if_false, eq_self_iff_true,
          if_true]
        unfold markEdge
        rw [hBe]
        simp only [hpe, Bool.true_and]
        cases hbk : (e.key == bestKeyOf wk g0 a b) with
        | true =>
          simp only [hbk, eq_self_iff_true, if_true]
          have hbk' : e.key = bestKeyOf wk g0 a b := by
            exact beq_iff_eq.mp hbk
          rw [hdata_eq e he hpe hbk', hbk']
        | false =>
          simp only [hbk, Bool.false_eq_true, if_false]
      | false =>
        have hmm2 : pairMem e.u e.v (S ++ [(a, b)]) = pairMem e.u e.v S := by
          rw [pairMem_append, pairEqb_comm a b e.u e.v, hpe]
          simp
        rw [hmm2]
        cases hmm : pairMem e.u e.v S with
        | true =>
          simp only [eq_self_iff_true, if_true]
          rw [if_neg (by simp only [markEdge_u, markEdge_v, markEdge_key, hpe,
            Bool.false_and]; exact Bool.false_ne_true)]
        | false =>
          simp only [Bool.false_eq_true, if_false]
          rw [if_neg (by simp only [hpe, Bool.false_and]; exact Bool.false_ne_true)]
    rw [hrp]
    simp only [hmin, hview]
    rw [hsimple, hmark]
  | true =>
    have hkdm : edgesBetween (markGraph wk g0 S) a b =
        (edgesBetween g0 a b).map (fun p =>
          if p.1 == bestKeyOf wk g0 a b then
            (p.1, dictSet p.2 "cycle_idx" (PyVal.int (p.1 : Int)))
          else p) := by
      rw [edgesBetween_markGraph, if_pos (by rw [hSm])]
    have hkeysm : (edgesBetween (markGraph wk g0 S) a b).map Prod.fst =
        (edgesBetween g0 a b).map Prod.fst := by
      rw [hkdm]
      exact keys_markMap (edgesBetween g0 a b) (bestKeyOf wk g0 a b)
        (fun k d => dictSet d "cycle_idx" (PyVal.int (k : Int)))
    have hlkm : ∀ k, keyLookup k (edgesBetween (markGraph wk g0 S) a b) =
        (keyLookup k (edgesBetween g0 a b)).map (fun d =>
          if k = bestKeyOf wk g0 a b then
            dictSet d "cycle_idx" (PyVal.int (k : Int)) else d) := by
      intro k
      rw [hkdm]
      exact keyLookup_markMap (edgesBetween g0 a b) (bestKeyOf wk g0 a b)
        (fun k d => dictSet d "cycle_idx" (PyVal.int (k : Int))) k
    have hwOfm : ∀ k ∈ (edgesBetween g0 a b).map Prod.fst,
        weightOf (edgesBetween (markGraph wk g0 S) a b) wk k =
          Except.ok (keyWeightD wk (edgesBetween g0 a b) k) := by
      intro k hk
      obtain ⟨d, hd⟩ := keyLookup_some_of_mem_keys _ hkeys0 k hk
      obtain ⟨hint, -⟩ := wf_entry_int g0 wk hwf a b k d (keyLookup_mem _ _ _ hd)
      unfold hasIntAt at hint
      have hdm : keyLookup k (edgesBetween (markGraph wk g0 S) a b) =
          some (if k = bestKeyOf wk g0 a b then
            dictSet d "cycle_idx" (PyVal.int (k : Int)) else d) := by
        rw [hlkm k, hd]
        rfl
      cases hdw : dictGet d wk with
      | none => rw [hdw] at hint; cases hint
      | some v =>
        cases v with
        | int w =>
          have hdw2 : dictGet (if k = bestKeyOf wk g0 a b then
              dictSet d "cycle_idx" (PyVal.int (k : Int)) else d) wk =
                some (PyVal.int w) := by
            by_cases hkB : k = bestKeyOf wk g0 a b
            · rw [if_pos hkB, dictGet_dictSet_ne d "cycle_idx" _ wk hwk, hdw]
            · rw [if_neg hkB, hdw]
          simp only [weightOf, multiViewGet, hdm, hdw2, keyWeightD, weightD,
            lookupKeyD, hd, Option.getD_some, hdw]
        | t1 c => rw [hdw] at hint; cases hint
        | t2 c => rw [hdw] at hint; cases hint
    have hmin : pyMinBy (weightOf (edgesBetween (markGraph wk g0 S) a b) wk)
        ((edgesBetween (markGraph wk g0 S) a b).map Prod.fst) =
          Except.ok (bestKeyOf wk g0 a b) := by
      rw [hkeysm]
      exact pyMinBy_eq _ (keyWeightD wk (edgesBetween g0 a b)) _ hksne hwOfm
    have hview : multiViewGet (edgesBetween (markGraph wk g0 S) a b)
        (bestKeyOf wk g0 a b) =
          Except.ok (dictSet dstar "cycle_idx"
            (PyVal.int (bestKeyOf wk g0 a b : Int))) := by
      have hlkB : keyLookup (bestKeyOf wk g0 a b)
          (edgesBetween (markGraph wk g0 S) a b) =
            some (dictSet dstar "cycle_idx"
              (PyVal.int (bestKeyOf wk g0 a b : Int))) := by
        rw [hlkm _, hdstar]
        simp
      unfold multiViewGet
      rw [hlkB]
    have hD : dictSet (dictSet dstar "cycle_idx"
        (PyVal.int (bestKeyOf wk g0 a b : Int))) "cycle_idx"
          (PyVal.int (bestKeyOf wk g0 a b : Int)) =
        dictSet dstar "cycle_idx" (PyVal.int (bestKeyOf wk g0 a b : Int)) :=
      dictSet_idem dstar "cycle_idx" _ hdnd
    have hDnd : ((dictSet dstar "cycle_idx"
        (PyVal.int (bestKeyOf wk g0 a b : Int))).map Prod.fst).Nodup :=
      dictSet_keys_nodup dstar "cycle_idx" _ hdnd
    have hsimple : sAddEdge (simpleState wk g0 S) a b
        (dictSet dstar "cycle_idx" (PyVal.int (bestKeyOf wk g0 a b : Int))) =
          simpleState wk g0 (addPair S a b) := by
      rw [sAddEdge_update _ a b _ hna' hnb' (by rw [sEdges_any]; exact hSm)]
      unfold simpleState addPair
      rw [if_pos (by rw [hSm])]
      dsimp only
      refine congrArg (SGraph.mk g0.nodes) ?_
      rw [List.map_map]
      apply map_congr_fn
      intro p hp
      simp only [Function.comp]
      cases hpe : pairEqb p.1 p.2 a b with
      | true =>
        have hfd : finalData wk g0 p.1 p.2 =
            dictSet dstar "cycle_idx" (PyVal.int (bestKeyOf wk g0 a b : Int)) := by
          rw [finalData_congr wk g0 p.1 p.2 a b hpe, hfinal]
        simp only [hpe, eq_self_iff_true, if_true, hfd]
        rw [dictUpdate_self _ hDnd]
      | false =>
        simp only [hpe, Bool.false_eq_true, if_false]
    have hmark : mgSetEdgeData (markGraph wk g0 S) a b (bestKeyOf wk g0 a b)
        (dictSet dstar "cycle_idx" (PyVal.int (bestKeyOf wk g0 a b : Int))) =
          markGraph wk g0 (addPair S a b) := by
      unfold mgSetEdgeData markGraph addPair
      rw [if_pos (by rw [hSm])]
      dsimp only
      rw [List.map_map]
      refine congrArg (MGraph.mk g0.nodes) ?_
      apply map_congr_fn
      intro e he
      simp only [Function.comp]
      cases hpe : pairEqb e.u e.v a b with
      | true =>
        have hmm : pairMem e.u e.v S = true := by
          rw [pairMem_congr e.u e.v a b hpe, hSm]
        have hBe : bestKeyOf wk g0 e.u e.v = bestKeyOf wk g0 a b :=
          bestKeyOf_congr wk g0 e.u e.v a b hpe
        simp only [hmm, eq_self_iff_true, if_true, markEdge_u, markEdge_v,
          markEdge_key, hpe, Bool.true_and]
        cases hbk : (e.key == bestKeyOf wk g0 a b) with
        | true =>
          have hbk' : e.key = bestKeyOf wk g0 a b := beq_iff_eq.mp hbk
          simp only [hbk, eq_self_iff_true, if_true]
          have hmd : (markEdge wk g0 e).data =
              dictSet dstar "cycle_idx" (PyVal.int (bestKeyOf wk g0 a b : Int)) := by
            rw [markEdge_data, hBe, if_pos (by rw [hbk]),
              hdata_eq e he hpe hbk', hbk']
          rw [← hmd]
          rw [← markEdge_u wk g0 e, ← markEdge_v wk g0 e, ← markEdge_key wk g0 e]
        | false =>
          simp only [hbk, Bool.false_eq_true, if_false]
      | false =>
        cases hmm : pairMem e.u e.v S with
        | true =>
          simp only [hmm, eq_self_iff_true, if_true]
          rw [if_neg (by simp only [markEdge_u, markEdge_v, markEdge_key, hpe,
            Bool.false_and]; exact Bool.false_ne_true)]
        | false =>
          simp only [hmm, Bool.false_eq_true, if_false]
          rw [if_neg (by simp only [hpe, Bool.false_and]; exact Bool.false_ne_true)]
    rw [hrp]
    simp only [hmin, hview]
    rw [hD, hsimple, hmark]

theorem reduceInner_spec (g0 : MGraph) (wk : String) (hwf : WF g0 wk) (a : Nat) :
    ∀ (ms : List Nat) (S : List (Nat × Nat)), SOK g0 S →
      (∀ m ∈ ms, edgesBetween g0 a m ≠ []) →
      reduceInner wk a ms (simpleState wk g0 S, markGraph wk g0 S) =
        Except.ok (simpleState wk g0 (addNbrs a ms S),
          markGraph wk g0 (addNbrs a ms S)) := by
  intro ms
  induction ms with
  | nil => intro S hS hms; rfl
  | cons m rest ih =>
    intro S hS hms
    have ham : edgesBetween g0 a m ≠ [] := hms m (List.mem_cons_self m rest)
    simp only [reduceInner, reducePair_step g0 wk hwf S hS a m ham]
    exact ih (addPair S a m) (SOK_addPair g0 S hS a m ham)
      (fun m' hm' => hms m' (List.mem_cons_of_mem m hm'))

theorem reduceOuter_spec (g0 : MGraph) (wk : String) (hwf : WF g0 wk) :
    ∀ (ns : List Nat) (S : List (Nat × Nat)), SOK g0 S →
      ∃ S', reduceOuter wk ns (simpleState wk g0 S, markGraph wk g0 S) =
          Except.ok (simpleState wk g0 S', markGraph wk g0 S') ∧
        SOK g0 S' ∧
        (∀ x y, pairMem x y S = true → pairMem x y S' = true) ∧
        (∀ a ∈ ns, ∀ b, edgesBetween g0 a b ≠ [] → pairMem a b S' = true) := by
  intro ns
  induction ns with
  | nil =>
    intro S hS
    exact ⟨S, rfl, hS, fun x y h => h, fun a ha => absurd ha (List.not_mem_nil a)⟩
  | cons n rest ih =>
    intro S hS
    have hnbrs : ∀ m ∈ neighbors g0 n, edgesBetween g0 n m ≠ [] := by
      intro m hm
      exact (mem_neighbors g0 wk hwf n m).mp hm
    have hinner := reduceInner_spec g0 wk hwf n (neighbors g0 n) S hS hnbrs
    obtain ⟨S', hred, hSok', hmono', hcov'⟩ := ih (addNbrs n (neighbors g0 n) S)
      (SOK_addNbrs g0 n (neighbors g0 n) S hS hnbrs)
    refine ⟨S', ?_, hSok', ?_, ?_⟩
    · simp only [reduceOuter, neighbors_markGraph, hinner]
      exact hred
    · intro x y h
      exact hmono' x y (pairMem_addNbrs_mono n (neighbors g0 n) S x y h)
    · intro a ha b hb
      rcases List.mem_cons.mp ha with ha | ha
      · subst ha
        have hbn : b ∈ neighbors g0 a := (mem_neighbors g0 wk hwf a b).mpr hb
        exact hmono' a b (pairMem_addNbrs_covers a (neighbors g0 a) S b hbn)
      · exact hcov' a ha b hb

theorem foldl_sAddNode (nodes : List (Nat × PyDict)) :
    ∀ acc : List (Nat × PyDict),
      (acc.map Prod.fst ++ nodes.map Prod.fst).Nodup →
      nodes.foldl (fun s p => sAddNode s p.1 p.2) ⟨acc, []⟩ =
        (⟨acc ++ nodes, []⟩ : SGraph) := by
  induction nodes with
  | nil =>
    intro acc _h
    simp only [List.foldl_nil, List.append_nil]
  | cons p rest ih =>
    intro acc h
    simp only [List.map_cons] at h
    have hmem : keyMem p.1 acc = false := by
      cases hval : keyMem p.1 acc
      · rfl
      · exfalso
        rw [keyMem_iff] at hval
        obtain ⟨-, -, hdisj⟩ := List.nodup_append.mp h
        exact hdisj hval (List.mem_cons_self _ _)
    have hstep : sAddNode ⟨acc, []⟩ p.1 p.2 = (⟨acc ++ [(p.1, p.2)], []⟩ : SGraph) := by
      unfold sAddNode hasNodeS
      rw [if_neg (by simp [hmem])]
    simp only [List.foldl_cons, hstep]
    have hnd : ((acc ++ [(p.1, p.2)]).map Prod.fst ++ rest.map Prod.fst).Nodup := by
      simp only [List.map_append, List.map_cons, List.map_nil, List.append_assoc,
        List.singleton_append]
      exact h
    rw [ih (acc ++ [(p.1, p.2)]) hnd]
    simp [List.append_assoc]

theorem markGraph_nil (wk : String) (g : MGraph) : markGraph wk g [] = g := by
  unfold markGraph
  have hfix : ∀ e ∈ g.edges,
      (if pairMem e.u e.v [] then markEdge wk g e else e) = e := by
    intro e _he
    rfl
  rw [map_id_of_fix g.edges _ hfix]

theorem to_simple_graph_spec (g : MGraph) (wk : String) (hwf : WF g wk) :
    ∃ S', to_simple_graph g wk =
        Except.ok (simpleState wk g S', markGraph wk g S') ∧
      SOK g S' ∧ (∀ a b, edgesBetween g a b ≠ [] → pairMem a b S' = true) := by
  obtain ⟨S', hred, hSok, _hmono, hcov⟩ := reduceOuter_spec g wk hwf
    (g.nodes.map Prod.fst) []
    ⟨fun p hp => absurd hp (List.not_mem_nil p), List.Pairwise.nil⟩
  rw [markGraph_nil wk g] at hred
  refine ⟨S', ?_, hSok, ?_⟩
  · unfold to_simple_graph
    rw [foldl_sAddNode g.nodes [] (by simpa using hwf.2.1)]
    exact hred
  · intro a b hb
    obtain ⟨hna, -, -⟩ := endpoints_of_edges g wk hwf a b hb
    exact hcov a ((keyMem_iff a g.nodes).mp hna) b hb

theorem filter_of_map {α β : Type} (l : List α) (f : α → β) (p : β → Bool) :
    (l.map f).filter p = (l.filter (fun x => p (f x))).map f := by
  induction l with
  | nil => rfl
  | cons x rest ih =>
    simp only [List.map_cons, List.filter_cons]
    cases hp : p (f x)
    · simp [hp, ih]
    · simp [hp, ih]

theorem filter_pair_unique (S : List (Nat × Nat)) (a b : Nat)
    (hpw : List.Pairwise (fun p q => pairEqb p.1 p.2 q.1 q.2 = false) S)
    (hmem : pairMem a b S = true) :
    (S.filter (fun p => pairEqb p.1 p.2 a b)).length = 1 := by
  induction S with
  | nil => simp [pairMem] at hmem
  | cons p rest ih =>
    rcases List.pairwise_cons.mp hpw with ⟨hp, hrest⟩
    rw [List.filter_cons]
    cases hval : pairEqb p.1 p.2 a b with
    | true =>
      have hnil : rest.filter (fun q => pairEqb q.1 q.2 a b) = [] := by
        rw [List.filter_eq_nil]
        intro q hq
        have hq' := hp q hq
        intro hcontra
        have hqp : pairEqb p.1 p.2 q.1 q.2 = true :=
          pairEqb_trans p.1 p.2 a b q.1 q.2 hval
            (by rw [pairEqb_comm]; exact hcontra)
        rw [hqp] at hq'
        cases hq'
      simp [hval, hnil]
    | false =>
      have hmem' : pairMem a b rest = true := by
        unfold pairMem at hmem ⊢
        rw [List.any_cons] at hmem
        simpa [hval] using hmem
      simp [hval, ih hrest hmem']

/-- C5: for every well-formed multigraph and weight key, `to_simple_graph`
keeps the node list, emits exactly one edge per pair present in the
multigraph (and none for absent pairs), and that edge's attributes are the
dict of the first minimal-weight sibling cycle in the pair's edge-key
iteration order, augmented with `cycle_idx` set to the selected cycle's
key; its weight-key value is ≤ every sibling's. -/
theorem to_simple_graph_selects_first_min (g : MGraph) (wk : String)
    (hwf : WF g wk) : ReducerSpec g wk := by
  obtain ⟨S', hred, ⟨hSedges, hSpw⟩, hcov⟩ := to_simple_graph_spec g wk hwf
  refine ⟨simpleState wk g S', markGraph wk g S', hred, rfl, ?_, ?_⟩
  · intro e he
    rcases List.mem_map.mp he with ⟨p, hp, hfe⟩
    rw [← hfe]
    exact hSedges p hp
  · intro a b hab
    have hkeys0 := wf_pair_keys g wk hwf a b
    have hksne : (edgesBetween g a b).map Prod.fst ≠ [] :=
      fun h => hab (List.map_eq_nil.mp h)
    have hspec : IsFirstMin (keyWeightD wk (edgesBetween g a b))
        ((edgesBetween g a b).map Prod.fst) (bestKeyOf wk g a b) :=
      firstMinKey_spec _ _ hksne
    obtain ⟨i, hgetk, hminle, hfirst⟩ := hspec
    obtain ⟨d, hgetd, hlook⟩ :=
      keyLookup_get?_nodup (edgesBetween g a b) hkeys0 i (bestKeyOf wk g a b) hgetk
    have h1 : keyWeightD wk (edgesBetween g a b) (bestKeyOf wk g a b) =
        weightD d wk := by
      unfold keyWeightD
      rw [lookupKeyD_eq _ _ _ hlook]
    constructor
    · show ((simpleState wk g S').edges.filter
        (fun e => pairEqb e.u e.v a b)).length = 1
      unfold simpleState
      dsimp only
      rw [filter_of_map, List.length_map]
      exact filter_pair_unique S' a b hSpw (hcov a b hab)
    · intro e he hpe
      rcases List.mem_map.mp he with ⟨p, hp, hfe⟩
      have hpep : pairEqb p.1 p.2 a b = true := by
        rw [← hfe] at hpe
        exact hpe
      have hdata : e.data = finalData wk g a b := by
        rw [← hfe]
        show finalData wk g p.1 p.2 = finalData wk g a b
        exact finalData_congr wk g p.1 p.2 a b hpep
      have hfd : finalData wk g a b =
          dictSet d "cycle_idx" (PyVal.int (bestKeyOf wk g a b : Int)) := by
        unfold finalData
        rw [lookupKeyD_eq _ _ _ hlook]
      refine ⟨i, bestKeyOf wk g a b, d, hgetd, ?_, ?_, ?_, ?_, ?_⟩
      · rw [hdata, hfd]
      · rw [hdata, hfd]
        exact dictGet_dictSet_self d "cycle_idx" _
      · rw [hdata, hfd]
        exact dictGet_dictSet_ne d "cycle_idx" _ wk hwf.1
      · intro q hq
        have h2 : keyWeightD wk (edgesBetween g a b) q.1 = weightD q.2 wk := by
          unfold keyWeightD
          rw [lookupKeyD_eq _ _ _ (keyLookup_of_mem_nodup _ hkeys0 q hq)]
        have hle := hminle q.1 (List.mem_map_of_mem Prod.fst hq)
        rw [h1, h2] at hle
        exact hle
      · intro j q hj hget
        have hksj : ((edgesBetween g a b).map Prod.fst).get? j = some q.1 := by
          rw [List.get?_map, hget]
          rfl
        have hlt := hfirst j q.1 hj hksj
        have h2 : keyWeightD wk (edgesBetween g a b) q.1 = weightD q.2 wk := by
          unfold keyWeightD
          rw [lookupKeyD_eq _ _ _
            (keyLookup_of_mem_nodup _ hkeys0 q (List.get?_mem hget))]
        rw [h1, h2] at hlt
        exact hlt

/-- Witness for C5: the spec's scenario — pair `(0, 1)` with weights
`[5, 2, 2]` at keys `1, 2, 3` — satisfies the well-formedness hypothesis,
and the reducer selects cycle 2 (the first minimal weight), recording
`cycle_idx = 2` on the single reduced edge. -/
theorem to_simple_graph_selects_first_min_witness :
    ReducerSpec g522 "weight" ∧
    to_simple_graph g522 "weight" = Except.ok (s522, g522mut) ∧
    s522.edges.map (fun e => dictGet e.data "cycle_idx") = [some (PyVal.int 2)] :=
  ⟨to_simple_graph_selects_first_min g522 "weight" (by decide), rfl, rfl⟩

/-- C6 (amended): the reducer copies node attributes and preserves the
multigraph's nodes, edge skeleton and order, but each selected cycle's
record in the input multigraph gains `cycle_idx` set to its own key —
every edge record afterwards is its original value or its original value
with that single added binding. -/
theorem to_simple_graph_mutation_bounded (g : MGraph) (wk : String)
    (hwf : WF g wk) : MutationSpec g wk := by
  obtain ⟨S', hred, -, -⟩ := to_simple_graph_spec g wk hwf
  refine ⟨simpleState wk g S', markGraph wk g S', hred, rfl, rfl, ?_, ?_⟩
  · exact List.length_map _ _
  · intro i e e' hget hget'
    have hmg : (markGraph wk g S').edges.get? i =
        some (if pairMem e.u e.v S' then markEdge wk g e else e) := by
      show (g.edges.map _).get? i = _
      rw [List.get?_map, hget]
      rfl
    rw [hmg] at hget'
    injection hget' with hget'
    subst hget'
    cases hm : pairMem e.u e.v S' with
    | true =>
      simp only [hm, eq_self_iff_true, if_true]
      refine ⟨markEdge_u wk g e, markEdge_v wk g e, markEdge_key wk g e, ?_⟩
      rw [markEdge_data]
      cases hbk : (e.key == bestKeyOf wk g e.u e.v) with
      | true =>
        simp only [hbk, eq_self_iff_true, if_true]
        exact Or.inr trivial
      | false =>
        simp only [hbk, Bool.false_eq_true, if_false]
        exact Or.inl trivial
    | false =>
      simp only [hm, Bool.false_eq_true, if_false]
      exact ⟨trivial, trivial, trivial, Or.inl trivial⟩

/-- Witness for C6 (amended): the three-cycle scenario graph satisfies the
hypothesis, and its reduction keeps the skeleton while only adding
`cycle_idx` to the selected record. -/
theorem to_simple_graph_mutation_bounded_witness : MutationSpec g522 "weight" :=
  to_simple_graph_mutation_bounded g522 "weight" (by decide)

end AutoNEB
